import Mathlib

/-!
# Verification of the barreleye indexing pipeline

Shallow embedding of the barreleye indexer (Rust) into Lean 4, covering:

* `WarehouseData.should_commit` (`src/common/src/chain/mod.rs`);
* the Bitcoin transfer / coinbase modules and UTXO input resolution
  (`src/common/src/chain/bitcoin/modules/transfer.rs`,
  `src/common/src/chain/bitcoin/mod.rs`);
* the EVM ERC-20 transfer module (`src/common/src/chain/evm/modules/erc20_transfer.rs`,
  `src/common/src/chain/evm/mod.rs`);
* the `links` invalidation query (`src/common/src/models/warehouse/link.rs`);
* the `ConfigKey` string encoder/decoder (`src/common/src/models/db/config.rs`);
* the leader heartbeat (`src/indexer/src/lib.rs`);
* a transition-system model of the Sync and Process stages
  (`src/indexer/src/sync.rs`, `src/indexer/src/process.rs`).

Modelling conventions:

* Rust `u64`/`u32`/`u16` values are `Nat` (with explicit wrap-around where the
  source can overflow and it matters), `i64` is `Int`;
* `f64` arithmetic on block counts and on satoshi amounts is modelled as exact
  rational arithmetic (`ℚ` with `round`, which is round-half-up, agreeing with
  Rust's `f64::round` on the non-negative values that occur here); the results
  agree with the source for all quantities below `2^53`;
* timestamps (`NaiveDateTime`) are `Int` seconds; `utils::ago_in_seconds k`
  is `now - k`;
* fallible/async Rust code becomes pure functions (`Option`/lists), database
  tables become association lists, and the concurrent stage loops become a
  small-step transition relation whose atomic steps are the durable commit
  points of the source.
-/

namespace Barreleye

/-! ## WarehouseData and `should_commit` (src/common/src/chain/mod.rs) -/

/-- The three row buffers of `WarehouseData` (only their sizes matter for the
commit decision) together with the `saved_at` timestamp. -/
structure WarehouseData where
  savedAt : Int
  transfersLen : Nat
  amountsLen : Nat
  linksLen : Nat
  deriving Repr, DecidableEq

/-- `WarehouseData::len`: total number of buffered rows. -/
def WarehouseData.len (d : WarehouseData) : Nat :=
  d.transfersLen + d.amountsLen + d.linksLen

/-- `WarehouseData::is_empty`. -/
def WarehouseData.is_empty (d : WarehouseData) : Bool :=
  d.len == 0

/-- `WarehouseData::should_commit`; `now` stands for `utils::now()`, so
`utils::ago_in_seconds s > saved_at` becomes `now - s > savedAt`. -/
def WarehouseData.should_commit (d : WarehouseData) (force : Bool) (now : Int) : Bool :=
  let minSecs : Int := 1
  let maxSecs : Int := 10
  let manuallyRequired := force && !d.is_empty
  let lengthyBreak := decide (now - maxSecs > d.savedAt) && !d.is_empty
  let bufferIsFull := decide (now - minSecs > d.savedAt) && decide (d.len > 50000)
  manuallyRequired || lengthyBreak || bufferIsFull

/-! ## Bitcoin transfer module (src/common/src/chain/bitcoin/modules/transfer.rs)

`HashMap<String, u64>` address→value maps are association lists with pairwise
distinct keys (`get_unique_addresses` below produces exactly those); iteration
order is fixed by the list, which is immaterial because no claim depends on
HashMap iteration order. -/

/-- A transfer as produced by the Bitcoin transfer module.  The `uuid`,
`module_id`, `network_id`, `block_height`, `tx_hash` and `created_at` fields of
`Transfer::new` are claim-irrelevant (each emitted transfer gets a fresh
`uuid`, so the `HashSet` insert in the source never collapses two emissions;
a list is therefore a faithful model of the emitted collection). -/
structure BTransfer where
  fromAddr : String
  toAddr : String
  relativeAmount : Nat
  batchAmount : Nat
  deriving Repr, DecidableEq

/-- Sum of the values of an address→value map. -/
def sumVals (m : List (String × Nat)) : Nat :=
  (m.map Prod.snd).sum

/-- The per-pair amount computation of `BitcoinTransfer::run`:
`((input_value as f64 / input_amount_total as f64) * output_value as f64).round()`
when `input_amount_total > 0`, else `0.0`; the `f64` arithmetic is modelled as
exact rational arithmetic (`round` on `ℚ` is round-half-up, which agrees with
`f64::round` on non-negative values). -/
def relAmount (total v w : Nat) : Nat :=
  if 0 < total then (round ((v : ℚ) / (total : ℚ) * (w : ℚ))).toNat else 0

/-- `BitcoinTransfer::run`: for a coinbase transaction return the empty batch;
otherwise emit one transfer for every `(input, output)` pair with distinct
addresses, with `relative_amount` from `relAmount` and
`batch_amount = Σ outputs`. -/
def bitcoinTransferRun (isCoinbase : Bool) (inputs outputs : List (String × Nat)) :
    List BTransfer :=
  if isCoinbase then []
  else
    let inputAmountTotal := sumVals inputs
    let batchAmount := sumVals outputs
    inputs.flatMap fun i =>
      (outputs.filter fun o => i.1 != o.1).map fun o =>
        { fromAddr := i.1, toAddr := o.1,
          relativeAmount := relAmount inputAmountTotal i.2 o.2,
          batchAmount := batchAmount }

/-- The claim's formula `round(I[from] / Σ I * O[to])`, taken over `ℚ`. -/
def relFormula (I : List (String × Nat)) (v w : Nat) : Nat :=
  (round ((v : ℚ) / (sumVals I : ℚ) * (w : ℚ))).toNat

/-- The guarded source computation agrees with the claim's bare formula even
when the input total is `0`, because `q / 0 = 0` in `ℚ`. -/
theorem relAmount_eq_relFormula (I : List (String × Nat)) (v w : Nat) :
    relAmount (sumVals I) v w = relFormula I v w := by
  unfold relAmount relFormula
  split
  · rfl
  · rename_i h
    have h0 : ((sumVals I : Nat) : ℚ) = 0 := by
      have : sumVals I = 0 := by omega
      simp [this]
    rw [h0, div_zero, zero_mul]
    simp

/-- Counting over a `flatMap` is the sum of the inner counts. -/
theorem countP_flatMap {α β : Type} (l : List α) (f : α → List β) (p : β → Bool) :
    (l.flatMap f).countP p = (l.map fun x => (f x).countP p).sum := by
  induction l with
  | nil => simp
  | cons x xs ih => simp [List.countP_append, ih]

/-- In a map with pairwise distinct keys, exactly one entry carries a key that
is present. -/
theorem countP_key_eq_one (O : List (String × Nat)) (hO : (O.map Prod.fst).Nodup)
    (b : String) (w : Nat) (hm : (b, w) ∈ O) : O.countP (fun o => o.1 == b) = 1 := by
  have h1 : O.countP (fun o => o.1 == b) = (O.map Prod.fst).count b := by
    rw [List.count, List.countP_map]; rfl
  rw [h1]
  exact List.count_eq_one_of_mem hO (List.mem_map.mpr ⟨(b, w), hm, rfl⟩)

/-- Summing a function that vanishes on every entry except the one with the
given key (where it is `1`) yields `1`, provided keys are pairwise distinct. -/
theorem map_sum_single (l : List (String × Nat)) (hl : (l.map Prod.fst).Nodup)
    (f : String × Nat → Nat) (a : String) (v : Nat) (hm : (a, v) ∈ l)
    (hz : ∀ x ∈ l, x.1 ≠ a → f x = 0) (h1 : f (a, v) = 1) :
    (l.map f).sum = 1 := by
  induction l with
  | nil => simp at hm
  | cons x xs ih =>
    simp only [List.map_cons, List.nodup_cons, List.mem_map] at hl
    obtain ⟨hx, hxs⟩ := hl
    rcases List.mem_cons.mp hm with rfl | hmem
    · have hrest : (xs.map f).sum = 0 := by
        apply List.sum_eq_zero
        intro y hy
        obtain ⟨z, hz', rfl⟩ := List.mem_map.mp hy
        refine hz z (List.mem_cons_of_mem _ hz') ?_
        intro hkey
        exact hx ⟨z, hz', hkey⟩
      simp [h1, hrest]
    · have hka : x.1 ≠ a := by
        intro hkey
        exact hx ⟨(a, v), hmem, hkey.symm⟩
      have hx0 : f x = 0 := hz x (List.mem_cons_self x xs) hka
      have := ih hxs hmem (fun y hy => hz y (List.mem_cons_of_mem _ hy))
      simp [hx0, this]

/-- **C3.** For a non-coinbase UTXO transaction with deduplicated input map `I`
and output map `O`, the transfer module emits exactly one transfer per pair
`(from ∈ I, to ∈ O)` with `from ≠ to`, whose `relative_amount` is
`round(I[from] / Σ I * O[to])` and whose `batch_amount` is `Σ O`; a coinbase
transaction yields no transfers; in particular, inputs `{A:100}` and outputs
`{B:60, C:40}` yield exactly `(A→B, rel 60, batch 100)` and
`(A→C, rel 40, batch 100)`. -/
theorem bitcoin_transfer_spec (I O : List (String × Nat))
    (hI : (I.map Prod.fst).Nodup) (hO : (O.map Prod.fst).Nodup) :
    bitcoinTransferRun true I O = [] ∧
    (∀ a v b w, (a, v) ∈ I → (b, w) ∈ O → a ≠ b →
      (bitcoinTransferRun false I O).countP
          (fun t => t.fromAddr == a && t.toAddr == b) = 1 ∧
      (⟨a, b, relFormula I v w, sumVals O⟩ : BTransfer) ∈ bitcoinTransferRun false I O) ∧
    (∀ t ∈ bitcoinTransferRun false I O, ∃ v w,
      (t.fromAddr, v) ∈ I ∧ (t.toAddr, w) ∈ O ∧ t.fromAddr ≠ t.toAddr ∧
      t.relativeAmount = relFormula I v w ∧ t.batchAmount = sumVals O) ∧
    ((bitcoinTransferRun false [("A", 100)] [("B", 60), ("C", 40)]).length = 2 ∧
      (⟨"A", "B", 60, 100⟩ : BTransfer) ∈
        bitcoinTransferRun false [("A", 100)] [("B", 60), ("C", 40)] ∧
      (⟨"A", "C", 40, 100⟩ : BTransfer) ∈
        bitcoinTransferRun false [("A", 100)] [("B", 60), ("C", 40)]) := by
  have hs1 : bitcoinTransferRun false [("A", 100)] [("B", 60), ("C", 40)] =
      [⟨"A", "B", 60, 100⟩, ⟨"A", "C", 40, 100⟩] := by
    have h60 : relAmount 100 100 60 = 60 := by
      norm_num [relAmount, round_eq]
      decide
    have h40 : relAmount 100 100 40 = 40 := by
      norm_num [relAmount, round_eq]
      decide
    simp [bitcoinTransferRun, sumVals, h60, h40]
  refine ⟨rfl, ?_, ?_, by rw [hs1]; rfl, by rw [hs1]; decide, by rw [hs1]; decide⟩
  · intro a v b w ha hb hab
    constructor
    · rw [show bitcoinTransferRun false I O = I.flatMap fun i =>
          (O.filter fun o => i.1 != o.1).map fun o =>
            BTransfer.mk i.1 o.1 (relAmount (sumVals I) i.2 o.2) (sumVals O) from rfl]
      rw [countP_flatMap]
      apply map_sum_single I hI _ a v ha
      · intro x hx hxa
        apply List.countP_eq_zero.mpr
        intro t ht
        obtain ⟨o, _, rfl⟩ := List.mem_map.mp ht
        simp only [Bool.and_eq_true, beq_iff_eq, not_and]
        intro hfrom
        exact absurd hfrom hxa
      · rw [List.countP_map, List.countP_filter]
        have hcg : List.countP
            (fun o =>
              ((fun t => t.fromAddr == a && t.toAddr == b) ∘ fun o =>
                    BTransfer.mk (a, v).1 o.1 (relAmount (sumVals I) (a, v).2 o.2) (sumVals O))
                  o &&
                ((a, v).1 != o.1))
            O = List.countP (fun o => o.1 == b) O := by
          apply List.countP_congr
          intro o ho
          by_cases h : o.1 = b
          · simp only [Function.comp, h]
            simpa using hab
          · simp [Function.comp, h]
        rw [hcg]
        exact countP_key_eq_one O hO b w hb
    · refine List.mem_flatMap.mpr ⟨(a, v), ha, List.mem_map.mpr ⟨(b, w), ?_, ?_⟩⟩
      · rw [List.mem_filter]
        exact ⟨hb, by simpa using hab⟩
      · show BTransfer.mk a b (relAmount (sumVals I) v w) (sumVals O) = _
        rw [relAmount_eq_relFormula]
  · intro t ht
    obtain ⟨i, hi, hmem⟩ := List.mem_flatMap.mp ht
    obtain ⟨o, ho, rfl⟩ := List.mem_map.mp hmem
    rw [List.mem_filter] at ho
    refine ⟨i.2, o.2, hi, ho.1, ?_, relAmount_eq_relFormula I i.2 o.2, rfl⟩
    simpa [bne_iff_ne] using ho.2

/-- **C3 witness.** The theorem applied to the concrete `S1` inputs. -/
theorem bitcoin_transfer_spec_witness :
    (⟨"A", "B", 60, 100⟩ : BTransfer) ∈
      bitcoinTransferRun false [("A", 100)] [("B", 60), ("C", 40)] :=
  (bitcoin_transfer_spec [("A", 100)] [("B", 60), ("C", 40)]
    (by decide) (by decide)).2.2.2.2.1

/-- **C10.** If the total input value is `0` (for example when no input address
could be resolved), the per-pair amount computation takes the guarded branch
instead of dividing by zero: every emitted transfer has `relative_amount = 0`,
and the module still returns a well-defined (total) result. -/
theorem bitcoin_transfer_zero_total (I O : List (String × Nat))
    (h : sumVals I = 0) :
    ∀ t ∈ bitcoinTransferRun false I O, t.relativeAmount = 0 := by
  intro t ht
  obtain ⟨i, _, hmem⟩ := List.mem_flatMap.mp ht
  obtain ⟨o, _, rfl⟩ := List.mem_map.mp hmem
  simp [relAmount, h]

/-- **C10 witness.** Inputs `{A:0}` and outputs `{B:5}` have zero input total;
the emitted `A→B` transfer exists and carries `relative_amount = 0`. -/
theorem bitcoin_transfer_zero_total_witness :
    (⟨"A", "B", 0, 5⟩ : BTransfer) ∈ bitcoinTransferRun false [("A", 0)] [("B", 5)] ∧
    (⟨"A", "B", 0, 5⟩ : BTransfer).relativeAmount = 0 := by
  refine ⟨by decide, ?_⟩
  exact bitcoin_transfer_zero_total [("A", 0)] [("B", 5)] (by decide)
    ⟨"A", "B", 0, 5⟩ (by decide)

/-! ## EVM ERC-20 transfer module
(src/common/src/chain/evm/modules/erc20_transfer.rs and `Evm::get_topic` in
src/common/src/chain/evm/mod.rs)

Topics (`H256`) are modelled by their lowercase hex encoding, which is exactly
what `Evm::get_topic` compares against `TRANSFER_FROM_TO_AMOUNT`; the `from` /
`to` addresses carried by the emitted transfer are kept as the raw topic words
(the source additionally applies `Address::from` + `to_checksum`, a formatting
step no claim constrains).  Log data is a byte list; `U256::decode` accepts
exactly 32 bytes (big-endian) and the source replaces a decode failure by `0`
via `unwrap_or_default`. -/

/-- `TRANSFER_FROM_TO_AMOUNT`: hex encoding of the ERC-20 `Transfer` event
signature. -/
def TRANSFER_FROM_TO_AMOUNT : String :=
  "ddf252ad1be2c89b69c2b068fc378daa952ba7f163c4a11628f55a4df523b3ef"

/-- A receipt log (`ethers::types::Log`), restricted to the fields the module
reads. -/
structure ELog where
  removed : Option Bool
  topics : List String
  data : List Nat
  address : String
  deriving Repr, DecidableEq

/-- Big-endian byte-list to natural number. -/
def bytesToNat (bs : List Nat) : Nat :=
  bs.foldl (fun acc b => acc * 256 + b % 256) 0

/-- `U256::decode` on raw log data: a 32-byte word decodes to its value, any
other length is a decode error. -/
def decodeU256 (bs : List Nat) : Option Nat :=
  if bs.length = 32 then some (bytesToNat bs) else none

/-- `EvmTopic` (src/common/src/chain/evm/mod.rs). -/
inductive EvmTopic where
  | unknown : EvmTopic
  | tokenTransfer (fromAddr toAddr : String) (amount : Nat) : EvmTopic
  deriving Repr, DecidableEq

/-- `Evm::get_topic`: a log with exactly three topics whose first topic is the
ERC-20 transfer signature decodes to `tokenTransfer from to amount`, where a
data decode failure yields amount `0` (`unwrap_or_default`). -/
def getTopic (l : ELog) : EvmTopic :=
  if l.topics.length = 3 ∧ l.topics.getD 0 "" = TRANSFER_FROM_TO_AMOUNT then
    .tokenTransfer (l.topics.getD 1 "") (l.topics.getD 2 "")
      ((decodeU256 l.data).getD 0)
  else
    .unknown

/-- A transfer as produced by the ERC-20 transfer module (claim-relevant
fields). -/
structure ETransfer where
  fromAddr : String
  toAddr : String
  assetAddress : Option String
  relativeAmount : Nat
  batchAmount : Nat
  deriving Repr, DecidableEq

/-- `EvmErc20Transfer::run`: iterate the receipt's logs; skip logs marked
removed; on an ERC-20 transfer topic with strictly positive amount emit a
transfer with `asset_address` the log's contract address and
`relative_amount = batch_amount = amount`. -/
def erc20LogEmit (l : ELog) : Option ETransfer :=
  if l.removed = some true then none
  else
    match getTopic l with
    | .tokenTransfer f t a =>
        if 0 < a then
          some { fromAddr := f, toAddr := t, assetAddress := some l.address,
                 relativeAmount := a, batchAmount := a }
        else none
    | .unknown => none

/-- `EvmErc20Transfer::run`: the loop over `receipt.logs`. -/
def erc20TransferRun (logs : List ELog) : List ETransfer :=
  logs.filterMap erc20LogEmit

/-- The claim's per-log condition: not marked removed, exactly three topics,
first topic the ERC-20 transfer signature, strictly positive decoded amount. -/
def erc20Qualifies (l : ELog) : Bool :=
  l.removed ≠ some true ∧ l.topics.length = 3 ∧
    l.topics.getD 0 "" = TRANSFER_FROM_TO_AMOUNT ∧ 0 < (decodeU256 l.data).getD 0

/-- **C5.** The token-transfer module emits exactly one transfer per receipt
log that is not marked removed, has exactly three topics, whose first topic is
the ERC-20 `Transfer` signature and whose decoded amount is strictly positive;
that transfer carries `asset_address =` the log's contract address and
`relative_amount = batch_amount =` the decoded amount; every other log emits
nothing. -/
theorem erc20_transfer_spec (logs : List ELog) :
    erc20TransferRun logs = (logs.filter erc20Qualifies).map fun l =>
      { fromAddr := l.topics.getD 1 "", toAddr := l.topics.getD 2 "",
        assetAddress := some l.address,
        relativeAmount := (decodeU256 l.data).getD 0,
        batchAmount := (decodeU256 l.data).getD 0 } := by
  induction logs with
  | nil => rfl
  | cons l ls ih =>
    have hhead : erc20LogEmit l =
        if erc20Qualifies l = true then
          some { fromAddr := l.topics.getD 1 "", toAddr := l.topics.getD 2 "",
                 assetAddress := some l.address,
                 relativeAmount := (decodeU256 l.data).getD 0,
                 batchAmount := (decodeU256 l.data).getD 0 }
        else none := by
      by_cases hrem : l.removed = some true
      · simp [erc20LogEmit, erc20Qualifies, hrem]
      · by_cases htop : l.topics.length = 3 ∧ l.topics.getD 0 "" = TRANSFER_FROM_TO_AMOUNT
        · by_cases hamt : 0 < (decodeU256 l.data).getD 0
          · have hq : erc20Qualifies l = true := by
              simp only [erc20Qualifies, decide_eq_true_eq]
              exact ⟨hrem, htop.1, htop.2, hamt⟩
            rw [hq, erc20LogEmit]
            simp only [if_neg hrem, getTopic, if_pos htop]
            simp [hamt]
          · have hq : erc20Qualifies l = false := by
              simp only [erc20Qualifies, decide_eq_false_iff_not, not_and]
              intro _ _ _
              exact hamt
            rw [hq, erc20LogEmit]
            simp only [if_neg hrem, getTopic, if_pos htop]
            simp [hamt]
        · have hq : erc20Qualifies l = false := by
            simp only [erc20Qualifies, decide_eq_false_iff_not, not_and]
            intro _ h1 h2
            exact absurd ⟨h1, h2⟩ htop
          rw [hq, erc20LogEmit]
          simp only [if_neg hrem, getTopic, if_neg htop]
          simp
    by_cases hq : erc20Qualifies l = true
    · rw [List.filter_cons, if_pos hq, List.map_cons, erc20TransferRun,
        List.filterMap_cons, hhead, if_pos hq]
      exact congrArg _ ih
    · rw [List.filter_cons, if_neg hq, erc20TransferRun, List.filterMap_cons, hhead,
        if_neg hq]
      exact ih

/-- **C6.** In the process stage's commit loop, the aggregate batch is
committed if and only if `should_commit` returns `true`, i.e. exactly when
(1) `force_commit` is set and the batch is non-empty, or (2) the batch holds
more than 50 000 rows and was last saved more than 1 second ago, or (3) the
batch is non-empty and was last saved more than 10 seconds ago; in every other
state the batch is retained. -/
theorem should_commit_iff (d : WarehouseData) (force : Bool) (now : Int) :
    d.should_commit force now = true ↔
      (force = true ∧ d.len ≠ 0) ∨
      (d.len > 50000 ∧ now - d.savedAt > 1) ∨
      (d.len ≠ 0 ∧ now - d.savedAt > 10) := by
  simp only [WarehouseData.should_commit, WarehouseData.is_empty, Bool.or_eq_true,
    Bool.and_eq_true, Bool.not_eq_true', beq_eq_false_iff_ne, ne_eq, decide_eq_true_eq]
  constructor
  · rintro ((⟨hf, hne⟩ | ⟨hage, hne⟩) | ⟨hage, hlen⟩)
    · exact Or.inl ⟨hf, hne⟩
    · exact Or.inr (Or.inr ⟨hne, by omega⟩)
    · exact Or.inr (Or.inl ⟨hlen, by omega⟩)
  · rintro (⟨hf, hne⟩ | ⟨hlen, hage⟩ | ⟨hne, hage⟩)
    · exact Or.inl (Or.inl ⟨hf, hne⟩)
    · exact Or.inr ⟨by omega, hlen⟩
    · exact Or.inl (Or.inr ⟨by omega, hne⟩)

/-! ## Link invalidation for newly added addresses
(`Link::delete_all_by_newly_added_addresses`, src/common/src/models/warehouse/link.rs)

The warehouse `links` table is a list of rows; the ClickHouse `DELETE` with its
subquery is modelled as a filter over a consistent snapshot of the table.
`transfer_uuids[-1]` is the last element, `arraySlice(xs, 2, -1)` drops the
first and the last element, `hasAny` is list intersection, and the
`(network_id = n AND to_address IN (...))` disjunction built by
`get_network_id_address_tuples` is membership in a list of
`(network_id, address)` pairs. -/

/-- A `links` row (uuids are modelled as naturals; `created_at` is
claim-irrelevant). -/
structure LinkRow where
  networkId : Nat
  blockHeight : Nat
  fromAddr : String
  toAddr : String
  transferUuids : List Nat
  deriving Repr, DecidableEq

/-- The target filter `(network_id = {nid} AND to_address IN ({addrs}))`. -/
def matchesTargets (targets : List (Nat × String)) (nid : Nat) (addr : String) : Bool :=
  targets.any fun t => t.1 == nid && t.2 == addr

/-- ClickHouse `arraySlice(xs, 2, -1)`: everything but the first and last
element. -/
def middleSlice (l : List Nat) : List Nat :=
  (l.drop 1).dropLast

/-- The subquery `SELECT DISTINCT groupArray(transfer_uuids[-1]) FROM links
WHERE length(transfer_uuids) > 0 AND <targets>`: the terminal uuids of all
chains ending at a target address. -/
def terminalUuids (rows : List LinkRow) (targets : List (Nat × String)) : List Nat :=
  (rows.filter fun r =>
      decide (r.transferUuids.length > 0) && matchesTargets targets r.networkId r.toAddr).map
    fun r => r.transferUuids.getLastD 0

/-- The `DELETE ... WHERE` predicate:
`length(transfer_uuids) > 2 AND hasAny(arraySlice(transfer_uuids, 2, -1), S)`. -/
def linkDeletePred (rows : List LinkRow) (targets : List (Nat × String)) (r : LinkRow) :
    Bool :=
  decide (r.transferUuids.length > 2) &&
    (middleSlice r.transferUuids).any fun u => (terminalUuids rows targets).contains u

/-- `Link::delete_all_by_newly_added_addresses`: the table after the delete. -/
def deleteAllByNewlyAddedAddresses (rows : List LinkRow) (targets : List (Nat × String)) :
    List LinkRow :=
  rows.filter fun r => !(linkDeletePred rows targets r)

/-- **C9.** `delete_all_by_newly_added_addresses` deletes exactly the rows
whose `transfer_uuids` has length greater than `2` and whose middle elements
(all but the first and last) contain a terminal uuid of some chain ending at a
target address; a row in which such uuids occur only as the first or last
element survives. -/
theorem link_delete_by_newly_added_spec (rows : List LinkRow)
    (targets : List (Nat × String)) :
    (∀ r, r ∈ deleteAllByNewlyAddedAddresses rows targets ↔
      r ∈ rows ∧ ¬(r.transferUuids.length > 2 ∧
        ∃ u ∈ middleSlice r.transferUuids, u ∈ terminalUuids rows targets)) ∧
    (∀ r ∈ rows, (∀ u ∈ middleSlice r.transferUuids, u ∉ terminalUuids rows targets) →
      r ∈ deleteAllByNewlyAddedAddresses rows targets) := by
  have hiff : ∀ r, linkDeletePred rows targets r = true ↔
      (r.transferUuids.length > 2 ∧
        ∃ u ∈ middleSlice r.transferUuids, u ∈ terminalUuids rows targets) := by
    intro r
    simp [linkDeletePred, List.any_eq_true, List.elem_iff]
  constructor
  · intro r
    rw [deleteAllByNewlyAddedAddresses, List.mem_filter]
    rw [Bool.not_eq_true', ← Bool.not_eq_true, hiff]
  · intro r hr hmid
    rw [deleteAllByNewlyAddedAddresses, List.mem_filter]
    refine ⟨hr, ?_⟩
    rw [Bool.not_eq_true', ← Bool.not_eq_true, hiff]
    rintro ⟨-, u, hu, hu'⟩
    exact hmid u hu hu'

/-- **C9 witness.**  With one target `(1, "X")` and a table holding a chain
`[1, 2]` ending at `X` (terminal uuid `2`), a row with uuids `[3, 2, 4]`
(terminal uuid `2` in the middle) is deleted, while a row with uuids
`[2, 5, 6]` (uuid `2` only at an endpoint) survives. -/
theorem link_delete_by_newly_added_spec_witness :
    (⟨1, 7, "C", "D", [3, 2, 4]⟩ : LinkRow) ∉
      deleteAllByNewlyAddedAddresses
        [⟨1, 5, "A", "X", [1, 2]⟩, ⟨1, 7, "C", "D", [3, 2, 4]⟩, ⟨1, 9, "E", "F", [2, 5, 6]⟩]
        [(1, "X")] ∧
    (⟨1, 9, "E", "F", [2, 5, 6]⟩ : LinkRow) ∈
      deleteAllByNewlyAddedAddresses
        [⟨1, 5, "A", "X", [1, 2]⟩, ⟨1, 7, "C", "D", [3, 2, 4]⟩, ⟨1, 9, "E", "F", [2, 5, 6]⟩]
        [(1, "X")] := by
  constructor
  · intro hmem
    have h := ((link_delete_by_newly_added_spec
      [⟨1, 5, "A", "X", [1, 2]⟩, ⟨1, 7, "C", "D", [3, 2, 4]⟩, ⟨1, 9, "E", "F", [2, 5, 6]⟩]
      [(1, "X")]).1 ⟨1, 7, "C", "D", [3, 2, 4]⟩).mp hmem
    exact h.2 (by decide)
  · exact (link_delete_by_newly_added_spec
      [⟨1, 5, "A", "X", [1, 2]⟩, ⟨1, 7, "C", "D", [3, 2, 4]⟩, ⟨1, 9, "E", "F", [2, 5, 6]⟩]
      [(1, "X")]).2 ⟨1, 9, "E", "F", [2, 5, 6]⟩ (by decide) (by decide)

/-! ## Sync chunk worker (src/indexer/src/sync.rs, worker loop and config
commit)

A chunk worker starts with `block_height = min`; each iteration first checks
`block_height + 1 > block_height_max` (and breaks without pushing), otherwise
increments `block_height`, extracts that block, and pushes
`(block_height, block_height_max)` to the main loop.  The main loop stores the
pushed pair while `min < max` and deletes the chunk key otherwise.  The trace
below records, in order, each `(extracted block, pushed config value)` pair of
one worker run. -/

/-- One run of the sync chunk worker on the chunk `(mn, mx)`. -/
def syncChunkWorkerTrace (mn mx : Nat) : List (Nat × (Nat × Nat)) :=
  if mn + 1 > mx then []
  else (mn + 1, (mn + 1, mx)) :: syncChunkWorkerTrace (mn + 1) mx
termination_by mx - mn

/-- The sync main loop's reaction to a pushed chunk value: keep the config at
the pushed pair while `min < max`, delete the chunk key otherwise. -/
inductive SyncCommitAction where
  | setChunk (mn mx : Nat) : SyncCommitAction
  | deleteChunk : SyncCommitAction
  deriving Repr, DecidableEq

/-- The `ConfigKey::IndexerSyncChunk` arm of the sync main loop. -/
def syncChunkMainCommit (v : Nat × Nat) : SyncCommitAction :=
  if v.1 < v.2 then .setChunk v.1 v.2 else .deleteChunk

/-- The blocks a chunk worker extracts are exactly `min+1, …, max`. -/
theorem syncChunkWorkerTrace_map_fst (mn mx : Nat) :
    (syncChunkWorkerTrace mn mx).map Prod.fst = List.range' (mn + 1) (mx - mn) := by
  generalize hk : mx - mn = k
  induction k generalizing mn with
  | zero =>
    rw [syncChunkWorkerTrace, if_pos (by omega)]
    rfl
  | succ k ih =>
    rw [syncChunkWorkerTrace, if_neg (by omega), List.map_cons, ih (mn + 1) (by omega),
      List.range'_succ]

/-- Every trace element is an extraction of some `h` pushing `(h, mx)`. -/
theorem syncChunkWorkerTrace_elem (mn mx : Nat) :
    ∀ p ∈ syncChunkWorkerTrace mn mx, p = (p.1, (p.1, mx)) ∧ mn < p.1 ∧ p.1 ≤ mx := by
  generalize hk : mx - mn = k
  induction k generalizing mn with
  | zero =>
    rw [syncChunkWorkerTrace, if_pos (by omega)]
    intro p hp
    simp at hp
  | succ k ih =>
    rw [syncChunkWorkerTrace, if_neg (by omega)]
    intro p hp
    rcases List.mem_cons.mp hp with rfl | hp'
    · exact ⟨rfl, by omega, by omega⟩
    · have := ih (mn + 1) (by omega) p hp'
      exact ⟨this.1, by omega, this.2.2⟩

/-- **C7 counterexample.** The claim says a chunk `(min, max)` extracts the
blocks of `min..max` "starting at min"; for the chunk `(0, 2)` the worker
extracts `[1, 2]`, which is neither `min..max = [0, 1]` (half-open reading)
nor `[0, 1, 2]` (closed reading). -/
theorem sync_chunk_worker_counterexample :
    (syncChunkWorkerTrace 0 2).map Prod.fst = [1, 2] ∧
    (syncChunkWorkerTrace 0 2).map Prod.fst ≠ List.range' 0 (2 - 0) ∧
    (syncChunkWorkerTrace 0 2).map Prod.fst ≠ List.range' 0 (2 - 0 + 1) := by
  refine ⟨?_, ?_, ?_⟩ <;> rw [syncChunkWorkerTrace, syncChunkWorkerTrace,
    syncChunkWorkerTrace] <;> decide

/-- **C7 (amended).** For a sync chunk with config value `(min, max)`, the
worker extracts exactly the blocks `min+1, …, max` (the half-open interval
`(min, max]`), starting at `min+1`; after extracting block `h` it pushes the
config value `(h, max)`, which the main loop persists while `h < max` and
which deletes the chunk key exactly when `h` reaches `max`. -/
theorem sync_chunk_worker_spec (mn mx : Nat) :
    (syncChunkWorkerTrace mn mx).map Prod.fst = List.range' (mn + 1) (mx - mn) ∧
    (∀ p ∈ syncChunkWorkerTrace mn mx,
      p.2 = (p.1, mx) ∧
      (syncChunkMainCommit p.2 = .setChunk p.1 mx ↔ p.1 < mx) ∧
      (syncChunkMainCommit p.2 = .deleteChunk ↔ p.1 = mx)) := by
  refine ⟨syncChunkWorkerTrace_map_fst mn mx, ?_⟩
  intro p hp
  obtain ⟨hshape, hlow, hhigh⟩ := syncChunkWorkerTrace_elem mn mx p hp
  have h2 : p.2 = (p.1, mx) := congrArg Prod.snd hshape
  refine ⟨h2, ?_, ?_⟩
  · rw [h2, syncChunkMainCommit]
    by_cases h : p.1 < mx
    · simp [h]
    · simp only [if_neg h]
      constructor
      · intro hcontr
        cases hcontr
      · intro hcontr
        exact absurd hcontr h
  · rw [h2, syncChunkMainCommit]
    by_cases h : p.1 < mx
    · simp only [if_pos h]
      constructor
      · intro hcontr
        cases hcontr
      · intro heq
        omega
    · simp only [if_neg h]
      constructor
      · intro _
        omega
      · intro _
        trivial

/-! ## Leader heartbeat (`Indexer::primary_check`, src/indexer/src/lib.rs)

One iteration of the heartbeat loop, acting on the `primary` config record
(`Option (uuid, updated_at)` as read by `Config::get`).  `Config::set_where` is
an optimistic CAS conditioned on `(value, updated_at)`; whether it succeeds
depends on concurrent writers, so its outcome is the oracle parameter `casOk`
(in the `None` branch `Config::set` is an upsert and always succeeds).
Replica uuids are naturals, timestamps are `Int` seconds.
`app.set_is_primary b` is recorded as `setsPrimaryFlag = some b`; `is_leading`
is `is_ready && is_primary`, so the flag is what decides leadership. -/

/-- `INDEXER_PROMOTION_TIMEOUT` (seconds). -/
def INDEXER_PROMOTION_TIMEOUT : Int := 20

/-- Which write the iteration performed against the `primary` key. -/
inductive PrimaryStep where
  | createKey : PrimaryStep
  | refreshCas : PrimaryStep
  | takeoverCas : PrimaryStep
  | noWrite : PrimaryStep
  deriving Repr, DecidableEq

/-- The externally visible effect of one heartbeat iteration. -/
structure HeartbeatEffect where
  setsPrimaryFlag : Option Bool
  action : PrimaryStep
  deriving Repr, DecidableEq

/-- One iteration of `Indexer::primary_check`, with the four `match` arms of
the source in order: absent record → claim it; own uuid still inside the
cool-down window (`updated_at ≥ now - PROMOTION_TIMEOUT/2`) → CAS refresh and,
on success, mark leading; record older than `PROMOTION_TIMEOUT` → CAS
takeover (flag untouched); otherwise → mark non-leading. -/
def primaryCheckStep (uuid : Nat) (now : Int) (rec : Option (Nat × Int))
    (casOk : Bool) : HeartbeatEffect :=
  let coolDownPeriod := now - INDEXER_PROMOTION_TIMEOUT / 2
  match rec with
  | none => ⟨none, .createKey⟩
  | some (v, t) =>
    if v = uuid ∧ t ≥ coolDownPeriod then
      if casOk then ⟨some true, .refreshCas⟩ else ⟨none, .refreshCas⟩
    else if now - INDEXER_PROMOTION_TIMEOUT > t then
      ⟨none, .takeoverCas⟩
    else
      ⟨some false, .noWrite⟩

/-- **C2 counterexample.** The claim says the CAS takeover is performed only
when the recorded leader uuid differs from the replica's own; but with
`uuid = 1`, `now = 25` and record `(1, 0)` — the replica's *own* uuid, 25
seconds stale — the iteration takes the takeover branch (the source guards the
takeover arm only by staleness, not by uuid inequality). -/
theorem primary_check_counterexample :
    ¬ (∀ (uuid : Nat) (now : Int) (rec : Option (Nat × Int)) (casOk : Bool),
      (primaryCheckStep uuid now rec casOk).action = PrimaryStep.takeoverCas →
        ∃ v t, rec = some (v, t) ∧ v ≠ uuid ∧ now - INDEXER_PROMOTION_TIMEOUT > t) := by
  intro h
  obtain ⟨v, t, hrec, hne, -⟩ := h 1 25 (some (1, 0)) true (by decide)
  obtain ⟨rfl, rfl⟩ : v = 1 ∧ t = 0 := by
    injection hrec with h'
    exact ⟨congrArg Prod.fst h'.symm, congrArg Prod.snd h'.symm⟩
  exact hne rfl

/-- **C2 (amended).** In `primary_check`: (i) an absent record is claimed with
no flag change; (ii) when the record carries the replica's own uuid and its
`updated_at` is within the cool-down window (`≥ now - PROMOTION_TIMEOUT/2`),
the replica CAS-refreshes and marks itself leading exactly on CAS success;
(iii) given a record, the takeover branch runs if and only if the record is
older than `PROMOTION_TIMEOUT` (regardless of whose uuid it carries); (iv) a
takeover iteration never sets the leading flag, so leadership can begin only
on a later iteration through the refresh branch; (v) the flag is set to `true`
only with a successful CAS refresh of the replica's own record within
cool-down; (vi) in every remaining case the replica marks itself
non-leading. -/
theorem primary_check_spec (uuid : Nat) (now : Int) (rec : Option (Nat × Int))
    (casOk : Bool) :
    (rec = none → primaryCheckStep uuid now rec casOk = ⟨none, .createKey⟩) ∧
    (∀ v t, rec = some (v, t) → v = uuid → t ≥ now - INDEXER_PROMOTION_TIMEOUT / 2 →
      primaryCheckStep uuid now rec casOk =
        if casOk then ⟨some true, .refreshCas⟩ else ⟨none, .refreshCas⟩) ∧
    (∀ v t, rec = some (v, t) →
      ((primaryCheckStep uuid now rec casOk).action = .takeoverCas ↔
        now - INDEXER_PROMOTION_TIMEOUT > t)) ∧
    ((primaryCheckStep uuid now rec casOk).action = .takeoverCas →
      (primaryCheckStep uuid now rec casOk).setsPrimaryFlag = none) ∧
    ((primaryCheckStep uuid now rec casOk).setsPrimaryFlag = some true →
      casOk = true ∧ ∃ t, rec = some (uuid, t) ∧ t ≥ now - INDEXER_PROMOTION_TIMEOUT / 2) ∧
    (∀ v t, rec = some (v, t) → ¬(v = uuid ∧ t ≥ now - INDEXER_PROMOTION_TIMEOUT / 2) →
      ¬(now - INDEXER_PROMOTION_TIMEOUT > t) →
      primaryCheckStep uuid now rec casOk = ⟨some false, .noWrite⟩) := by
  refine ⟨?_, ?_, ?_, ?_, ?_, ?_⟩
  · rintro rfl
    rfl
  · rintro v t rfl rfl hcool
    rw [primaryCheckStep]
    rw [if_pos ⟨rfl, hcool⟩]
  · rintro v t rfl
    rw [primaryCheckStep]
    by_cases h1 : v = uuid ∧ t ≥ now - INDEXER_PROMOTION_TIMEOUT / 2
    · rw [if_pos h1]
      constructor
      · intro hact
        by_cases hc : casOk = true
        · rw [if_pos hc] at hact
          cases hact
        · rw [if_neg hc] at hact
          cases hact
      · intro hstale
        exfalso
        have := h1.2
        rw [INDEXER_PROMOTION_TIMEOUT] at hstale this
        omega
    · rw [if_neg h1]
      by_cases h2 : now - INDEXER_PROMOTION_TIMEOUT > t
      · rw [if_pos h2]
        exact ⟨(fun _ => h2), (fun _ => rfl)⟩
      · rw [if_neg h2]
        exact ⟨(fun hact => by cases hact), (fun hstale => absurd hstale h2)⟩
  · intro hact
    match hrec : rec with
    | none => cases hact
    | some (v, t) =>
      rw [primaryCheckStep] at hact ⊢
      by_cases h1 : v = uuid ∧ t ≥ now - INDEXER_PROMOTION_TIMEOUT / 2
      · rw [if_pos h1] at hact ⊢
        by_cases hc : casOk = true
        · rw [if_pos hc] at hact
          cases hact
        · rw [if_neg hc] at hact
          cases hact
      · rw [if_neg h1] at hact ⊢
        by_cases h2 : now - INDEXER_PROMOTION_TIMEOUT > t
        · rw [if_pos h2]
        · rw [if_neg h2] at hact
          cases hact
  · intro hflag
    match hrec : rec with
    | none => cases hflag
    | some (v, t) =>
      rw [primaryCheckStep] at hflag
      by_cases h1 : v = uuid ∧ t ≥ now - INDEXER_PROMOTION_TIMEOUT / 2
      · rw [if_pos h1] at hflag
        by_cases hc : casOk = true
        · exact ⟨hc, t, by rw [h1.1], h1.2⟩
        · rw [if_neg hc] at hflag
          cases hflag
      · rw [if_neg h1] at hflag
        by_cases h2 : now - INDEXER_PROMOTION_TIMEOUT > t
        · rw [if_pos h2] at hflag
          cases hflag
        · rw [if_neg h2] at hflag
          cases hflag
  · rintro v t rfl h1 h2
    rw [primaryCheckStep, if_neg h1, if_neg h2]

/-- **C2 witness.** A replica whose own record is 5 seconds old refreshes it
and marks itself leading; the theorem applied at `uuid = 1`, `now = 100`,
record `(1, 95)`, successful CAS. -/
theorem primary_check_spec_witness :
    primaryCheckStep 1 100 (some (1, 95)) true = ⟨some true, .refreshCas⟩ := by
  have h := (primary_check_spec 1 100 (some (1, 95)) true).2.1 1 95 rfl rfl (by decide)
  simpa using h

/-! ## UTXO input resolution (`Bitcoin::process_transaction` / `Bitcoin::get_utxo`,
src/common/src/chain/bitcoin/mod.rs)

`script_pubkey` parsing (`Address::from_script`, an external library) is
pre-applied: an output carries `addr = some a` when the script parses to
address `a` and `addr = none` when it does not (in which case `get_address`
falls back to the `"{txid}:{vout}"` placeholder built from the *containing*
transaction's hash). -/

/-- A `ParquetInput` row. -/
structure PInput where
  txHash : String
  prevTxHash : String
  prevVout : Nat
  deriving Repr, DecidableEq

/-- A `ParquetOutput` row (with the script pre-parsed, see above). -/
structure POutput where
  txHash : String
  value : Nat
  addr : Option String
  deriving Repr, DecidableEq

/-- A `ParquetTransaction` row (claim-relevant fields). -/
structure PTransaction where
  hash : String
  isCoinbase : Bool
  deriving Repr, DecidableEq

/-- `Bitcoin::get_address`: `None` when `vout` is out of bounds of the given
output list, otherwise the parsed address or the `"{txid}:{vout}"`
placeholder. -/
def get_address (tx : PTransaction) (txOutputs : List POutput) (vout : Nat) :
    Option String :=
  if h : vout < txOutputs.length then
    some ((txOutputs.get ⟨vout, h⟩).addr.getD (tx.hash ++ ":" ++ toString vout))
  else none

/-- `Bitcoin::get_utxo`: pair the resolved address with
`tx_outputs[vout].value`. -/
def get_utxo (tx : PTransaction) (txOutputs : List POutput) (vout : Nat) :
    Option (String × Nat) :=
  (get_address tx txOutputs vout).map fun a =>
    (a, (txOutputs.getD vout ⟨"", 0, none⟩).value)

/-- The value currently recorded for a key in the accumulating map
(`m.get(&address_key).unwrap_or(&0)`). -/
def lookupVal (m : List (String × Nat)) (a : String) : Nat :=
  ((m.find? fun p => p.1 == a).map Prod.snd).getD 0

/-- `HashMap::insert`: replace the entry with the given key, or append it. -/
def upsert : List (String × Nat) → String → Nat → List (String × Nat)
  | [], a, v => [(a, v)]
  | (b, w) :: rest, a, v =>
      if b = a then (b, v) :: rest else (b, w) :: upsert rest a v

/-- `get_unique_addresses`: fold the `(address, value)` pairs into a map,
adding values of equal addresses. -/
def getUniqueAddresses (pairs : List (String × Nat)) : List (String × Nat) :=
  pairs.foldl (fun m p => upsert m p.1 (lookupVal m p.1 + p.2)) []

/-- The input-map construction of `Bitcoin::process_transaction`: for a
non-coinbase transaction, resolve every input through
`get_utxo(&tx, &tx_outputs, input.previous_output_vout)` — note that
`tx_outputs` are the outputs of `tx` itself — and deduplicate. -/
def processTransactionInputs (tx : PTransaction) (txInputs : List PInput)
    (txOutputs : List POutput) : List (String × Nat) :=
  getUniqueAddresses (txInputs.filterMap fun i =>
    if tx.isCoinbase then none else get_utxo tx txOutputs i.prevVout)

/-- The per-transaction filtering of `Bitcoin::process_block`: the inputs and
outputs handed to `process_transaction` are the block's rows whose `tx_hash`
equals the transaction's own hash. -/
def processBlockInputsOf (tx : PTransaction) (allInputs : List PInput)
    (allOutputs : List POutput) : List (String × Nat) :=
  processTransactionInputs tx
    (allInputs.filter fun i => i.txHash == tx.hash)
    (allOutputs.filter fun o => o.txHash == tx.hash)

/-- The resolution the claim (and §4.4.1 of the spec) describes: look up the
output `prev_vout` of the *referenced* transaction `prev_txid` among the
outputs stored for the block. -/
def claimedResolveInput (allOutputs : List POutput) (i : PInput) :
    Option (String × Nat) :=
  let refOutputs := allOutputs.filter fun o => o.txHash == i.prevTxHash
  if h : i.prevVout < refOutputs.length then
    some ((refOutputs.get ⟨i.prevVout, h⟩).addr.getD
        (i.prevTxHash ++ ":" ++ toString i.prevVout),
      (refOutputs.get ⟨i.prevVout, h⟩).value)
  else none

/-- **C4.** Failing input: a block with transaction `t1` whose output `0` is
`(A, 100)` and transaction `t2` that spends `(t1, 0)` and has its own output
`0 = (B, 60)`.  The claim (and the spec) say the input map of `t2` is built
from the referenced output, `{A: 100}`; the code instead indexes `t2`'s *own*
outputs with `previous_output_vout` (ignoring `previous_output_tx_hash`
entirely) and produces `{B: 60}`. -/
theorem bitcoin_input_resolution_bug :
    processBlockInputsOf ⟨"t2", false⟩ [⟨"t2", "t1", 0⟩]
        [⟨"t1", 100, some "A"⟩, ⟨"t2", 60, some "B"⟩] = [("B", 60)] ∧
    claimedResolveInput [⟨"t1", 100, some "A"⟩, ⟨"t2", 60, some "B"⟩]
        ⟨"t2", "t1", 0⟩ = some ("A", 100) ∧
    ([("B", 60)] : List (String × Nat)) ≠ [("A", 100)] := by
  refine ⟨?_, ?_, ?_⟩ <;> decide

/-! ## ConfigKey encoder/decoder (src/common/src/models/db/config.rs)

The `Display` derive renders each key from its textual template, interpolating
the numeric ids in decimal; `From<String>` replaces every maximal digit run
with `\x7b\x7d` (regex `(\d+)`), parses each run as `i64` (dropping runs that
overflow, as `parse::<i64>().ok()` does), and matches the resulting template.
Strings are worked with as `List Char`. -/

/-- Decimal digit to character. -/
def digitChar : Nat → Char
  | 0 => '0' | 1 => '1' | 2 => '2' | 3 => '3' | 4 => '4'
  | 5 => '5' | 6 => '6' | 7 => '7' | 8 => '8' | _ => '9'

theorem digitChar_toNat (d : Nat) (h : d < 10) : (digitChar d).toNat = 48 + d := by
  interval_cases d <;> rfl

theorem digitChar_isDigit (d : Nat) (h : d < 10) : (digitChar d).isDigit = true := by
  interval_cases d <;> rfl

/-- Decimal rendering of a natural number (Rust's `u64` `Display`). -/
def natCharsAux (n : Nat) (acc : List Char) : List Char :=
  if n < 10 then digitChar n :: acc
  else natCharsAux (n / 10) (digitChar (n % 10) :: acc)
termination_by n
decreasing_by exact Nat.div_lt_self (by omega) (by omega)

def natChars (n : Nat) : List Char :=
  natCharsAux n []

theorem natCharsAux_append (n : Nat) (acc : List Char) :
    natCharsAux n acc = natChars n ++ acc := by
  induction n using Nat.strong_induction_on generalizing acc with
  | _ n ih =>
    by_cases h : n < 10
    · conv_lhs => rw [natCharsAux]
      conv_rhs => rw [natChars, natCharsAux]
      rw [if_pos h, if_pos h]
      rfl
    · conv_lhs => rw [natCharsAux]
      conv_rhs => rw [natChars, natCharsAux]
      rw [if_neg h, if_neg h]
      rw [ih (n / 10) (Nat.div_lt_self (by omega) (by omega)),
        ih (n / 10) (Nat.div_lt_self (by omega) (by omega))]
      simp

theorem natChars_eq_low (n : Nat) (h : n < 10) : natChars n = [digitChar n] := by
  rw [natChars, natCharsAux, if_pos h]

theorem natChars_eq_high (n : Nat) (h : ¬n < 10) :
    natChars n = natChars (n / 10) ++ [digitChar (n % 10)] := by
  rw [natChars, natCharsAux, if_neg h, natCharsAux_append]

theorem natChars_ne_nil (n : Nat) : natChars n ≠ [] := by
  by_cases h : n < 10
  · rw [natChars_eq_low n h]
    simp
  · rw [natChars_eq_high n h]
    simp

theorem natChars_isDigit (n : Nat) : ∀ c ∈ natChars n, c.isDigit = true := by
  induction n using Nat.strong_induction_on with
  | _ n ih =>
    by_cases h : n < 10
    · rw [natChars_eq_low n h]
      intro c hc
      rw [List.mem_singleton.mp hc]
      exact digitChar_isDigit n h
    · rw [natChars_eq_high n h]
      intro c hc
      rcases List.mem_append.mp hc with h1 | h2
      · exact ih (n / 10) (Nat.div_lt_self (by omega) (by omega)) c h1
      · rw [List.mem_singleton.mp h2]
        exact digitChar_isDigit (n % 10) (Nat.mod_lt n (by omega))

/-- Parsing a digit string back to a number (the accumulator loop inside
Rust's `str::parse`). -/
def parseNatDigits (ds : List Char) : Nat :=
  ds.foldl (fun a c => 10 * a + (c.toNat - 48)) 0

theorem parseNatDigits_append (xs ys : List Char) :
    parseNatDigits (xs ++ ys) =
      ys.foldl (fun a c => 10 * a + (c.toNat - 48)) (parseNatDigits xs) := by
  rw [parseNatDigits, List.foldl_append]
  rfl

theorem parseNatDigits_natChars (n : Nat) : parseNatDigits (natChars n) = n := by
  induction n using Nat.strong_induction_on with
  | _ n ih =>
    by_cases h : n < 10
    · rw [natChars_eq_low n h, parseNatDigits]
      simp [digitChar_toNat n h]
    · rw [natChars_eq_high n h, parseNatDigits_append,
        ih (n / 10) (Nat.div_lt_self (by omega) (by omega))]
      simp only [List.foldl_cons, List.foldl_nil]
      rw [digitChar_toNat (n % 10) (Nat.mod_lt n (by omega))]
      omega

/-- `i64::MAX`. -/
def i64Max : Nat := 2 ^ 63 - 1

/-- `"…".parse::<i64>().ok()` on a pure digit run: the value, unless it
overflows `i64`. -/
def parseI64 (ds : List Char) : Option Nat :=
  let v := parseNatDigits ds
  if v ≤ i64Max then some v else none

theorem parseI64_natChars (n : Nat) (h : n ≤ i64Max) :
    parseI64 (natChars n) = some n := by
  rw [parseI64]
  simp only [parseNatDigits_natChars]
  rw [if_pos h]

/-- Maximal runs of consecutive characters with equal digit-ness, tagged with
whether the run is a digit run; this is how the regex `(\d+)` partitions a
key string. -/
def runs : List Char → List (Bool × List Char)
  | [] => []
  | c :: cs =>
    match runs cs with
    | [] => [(c.isDigit, [c])]
    | (b, r) :: rest =>
        if c.isDigit = b then (b, c :: r) :: rest
        else (c.isDigit, [c]) :: (b, r) :: rest

/-- Prepending a non-empty digit-free literal to a string whose runs start
with a digit run (or to the empty string) contributes one literal run. -/
theorem runs_append_nondigit (L t : List Char) (hne : L ≠ [])
    (hnd : ∀ c ∈ L, c.isDigit = false)
    (ht : runs t = [] ∨ ∃ r rest, runs t = (true, r) :: rest) :
    runs (L ++ t) = (false, L) :: runs t := by
  induction L with
  | nil => exact absurd rfl hne
  | cons c cs ih =>
    have hc : c.isDigit = false := hnd c (List.mem_cons_self c cs)
    cases cs with
    | nil =>
      simp only [List.cons_append, List.nil_append]
      rw [runs]
      rcases ht with h | ⟨r, rest, h⟩
      · rw [h, hc]
      · rw [h, hc]
        simp
    | cons c' cs' =>
      have ih' := ih (by simp) (fun x hx => hnd x (List.mem_cons_of_mem _ hx))
      simp only [List.cons_append] at ih' ⊢
      rw [runs, ih', hc]
      simp

/-- Prepending a non-empty digit run to a string whose runs start with a
literal run (or to the empty string) contributes one digit run. -/
theorem runs_append_digit (D t : List Char) (hne : D ≠ [])
    (hd : ∀ c ∈ D, c.isDigit = true)
    (ht : runs t = [] ∨ ∃ r rest, runs t = (false, r) :: rest) :
    runs (D ++ t) = (true, D) :: runs t := by
  induction D with
  | nil => exact absurd rfl hne
  | cons c cs ih =>
    have hc : c.isDigit = true := hd c (List.mem_cons_self c cs)
    cases cs with
    | nil =>
      simp only [List.cons_append, List.nil_append]
      rw [runs]
      rcases ht with h | ⟨r, rest, h⟩
      · rw [h, hc]
      · rw [h, hc]
        simp
    | cons c' cs' =>
      have ih' := ih (by simp) (fun x hx => hd x (List.mem_cons_of_mem _ hx))
      simp only [List.cons_append] at ih' ⊢
      rw [runs, ih', hc]
      simp

/-- `runs` of a decimal rendering prepended to a literal-headed (or empty)
remainder. -/
theorem runs_natChars_append (m : Nat) (t : List Char)
    (ht : runs t = [] ∨ ∃ r rest, runs t = (false, r) :: rest) :
    runs (natChars m ++ t) = (true, natChars m) :: runs t :=
  runs_append_digit (natChars m) t (natChars_ne_nil m) (natChars_isDigit m) ht

/-- The `\x7b\x7d` placeholder the decoder substitutes for each digit run. -/
def braces : List Char := ['\x7b', '\x7d']

/-- `re.replace_all(&s, "\x7b\x7d")`: rebuild the string with each digit run
replaced by the placeholder. -/
def templateOfRuns : List (Bool × List Char) → List Char
  | [] => []
  | (true, _) :: rest => braces ++ templateOfRuns rest
  | (false, l) :: rest => l ++ templateOfRuns rest

/-- The digit runs, in order (`re.find_iter`). -/
def numsOfRuns : List (Bool × List Char) → List (List Char)
  | [] => []
  | (true, d) :: rest => d :: numsOfRuns rest
  | (false, _) :: rest => numsOfRuns rest

/-- The decoder's template view of a string. -/
def templateOf (s : List Char) : List Char :=
  templateOfRuns (runs s)

/-- The decoder's parsed numbers (`filter_map(|n| n.as_str().parse().ok())`). -/
def extractNums (s : List Char) : List Nat :=
  (numsOfRuns (runs s)).filterMap parseI64

/-- `ConfigKey` (src/common/src/models/db/config.rs).  `PrimaryId` arguments
(`i64`) are `Int`; `BlockHeight` (`u64`) and the module id (`u16`) are `Nat`. -/
inductive ConfigKey where
  | Primary : ConfigKey
  | IndexerCopyTailSync (nid : Int) : ConfigKey
  | IndexerCopyChunkSync (nid : Int) (bh : Nat) : ConfigKey
  | IndexerProcessTailSync (nid : Int) : ConfigKey
  | IndexerProcessChunkSync (nid : Int) (bh : Nat) : ConfigKey
  | IndexerProcessModuleSync (nid : Int) (mid : Nat) : ConfigKey
  | IndexerProcessModuleSynced (nid : Int) (mid : Nat) : ConfigKey
  | IndexerUpstreamSync (nid : Int) (aid : Int) : ConfigKey
  | IndexerProgress (nid : Int) : ConfigKey
  | BlockHeight (nid : Int) : ConfigKey
  | NetworksUpdated : ConfigKey
  | NewlyAddedAddress (nid : Int) (aid : Int) : ConfigKey
  deriving Repr, DecidableEq

/-- Decimal rendering of an `i64` (Rust `Display`). -/
def intChars (n : Int) : List Char :=
  if n < 0 then '-' :: natChars (-n).toNat else natChars n.toNat

/-- The `Display` derive: each `ConfigKey` rendered from its template. -/
def renderKey : ConfigKey → List Char
  | .Primary => "primary".data
  | .IndexerCopyTailSync nid => "indexer_copy_tail_sync_n".data ++ intChars nid
  | .IndexerCopyChunkSync nid bh =>
      "indexer_copy_chunk_sync_n".data ++ intChars nid ++ "_b".data ++ natChars bh
  | .IndexerProcessTailSync nid => "indexer_process_tail_sync_n".data ++ intChars nid
  | .IndexerProcessChunkSync nid bh =>
      "indexer_process_chunk_sync_n".data ++ intChars nid ++ "_b".data ++ natChars bh
  | .IndexerProcessModuleSync nid mid =>
      "indexer_process_module_sync_n".data ++ intChars nid ++ "_m".data ++ natChars mid
  | .IndexerProcessModuleSynced nid mid =>
      "indexer_process_module_synced_n".data ++ intChars nid ++ "_m".data ++ natChars mid
  | .IndexerUpstreamSync nid aid =>
      "indexer_upstream_sync_n".data ++ intChars nid ++ "_a".data ++ intChars aid
  | .IndexerProgress nid => "indexer_n".data ++ intChars nid ++ "_progress".data
  | .BlockHeight nid => "block_height_n".data ++ intChars nid
  | .NetworksUpdated => "networks_updated".data
  | .NewlyAddedAddress nid aid =>
      "newly_added_address_n".data ++ intChars nid ++ "_a".data ++ intChars aid

/-- `From<String> for ConfigKey`: match the digit-run template and arity; the
casts `as BlockHeight` (`i64 → u64`, identity on the non-negative parsed
values) and `as u16` (truncation mod `2^16`) follow the source; no match
corresponds to the source's `panic!` and is `none`. -/
def parseKey (s : List Char) : Option ConfigKey :=
  let t := templateOf s
  let n := extractNums s
  if t = "primary".data then some .Primary
  else if t = "indexer_copy_tail_sync_n".data ++ braces ∧ n.length = 1 then
    some (.IndexerCopyTailSync (n.getD 0 0 : Nat))
  else if t = "indexer_copy_chunk_sync_n".data ++ braces ++ "_b".data ++ braces ∧
      n.length = 2 then
    some (.IndexerCopyChunkSync (n.getD 0 0 : Nat) (n.getD 1 0))
  else if t = "indexer_process_tail_sync_n".data ++ braces ∧ n.length = 1 then
    some (.IndexerProcessTailSync (n.getD 0 0 : Nat))
  else if t = "indexer_process_chunk_sync_n".data ++ braces ++ "_b".data ++ braces ∧
      n.length = 2 then
    some (.IndexerProcessChunkSync (n.getD 0 0 : Nat) (n.getD 1 0))
  else if t = "indexer_process_module_sync_n".data ++ braces ++ "_m".data ++ braces ∧
      n.length = 2 then
    some (.IndexerProcessModuleSync (n.getD 0 0 : Nat) (n.getD 1 0 % 2 ^ 16))
  else if t = "indexer_process_module_synced_n".data ++ braces ++ "_m".data ++ braces ∧
      n.length = 2 then
    some (.IndexerProcessModuleSynced (n.getD 0 0 : Nat) (n.getD 1 0 % 2 ^ 16))
  else if t = "indexer_upstream_sync_n".data ++ braces ++ "_a".data ++ braces ∧
      n.length = 2 then
    some (.IndexerUpstreamSync (n.getD 0 0 : Nat) (n.getD 1 0 : Nat))
  else if t = "indexer_n".data ++ braces ++ "_progress".data ∧ n.length = 1 then
    some (.IndexerProgress (n.getD 0 0 : Nat))
  else if t = "block_height_n".data ++ braces ∧ n.length = 1 then
    some (.BlockHeight (n.getD 0 0 : Nat))
  else if t = "networks_updated".data then some .NetworksUpdated
  else if t = "newly_added_address_n".data ++ braces ++ "_a".data ++ braces ∧
      n.length = 2 then
    some (.NewlyAddedAddress (n.getD 0 0 : Nat) (n.getD 1 0 : Nat))
  else none

theorem intChars_nonneg (n : Int) (h : 0 ≤ n) : intChars n = natChars n.toNat := by
  rw [intChars, if_neg (by omega)]

/-- A digit-free literal is one single literal run. -/
theorem runs_lit (L : List Char) (hne : L ≠ []) (hnd : ∀ c ∈ L, c.isDigit = false) :
    runs L = [(false, L)] := by
  have h := runs_append_nondigit L [] hne hnd (Or.inl rfl)
  simpa using h

/-- Template and numbers of a pure-literal key. -/
theorem template_shapeA (L : List Char) (hne : L ≠ [])
    (hnd : ∀ c ∈ L, c.isDigit = false) :
    templateOf L = L ∧ extractNums L = [] := by
  rw [templateOf, extractNums, runs_lit L hne hnd]
  constructor
  · simp [templateOfRuns]
  · simp [numsOfRuns]

/-- Template and numbers of a `literal ++ number` key. -/
theorem template_shapeB (L : List Char) (m : Nat) (hne : L ≠ [])
    (hnd : ∀ c ∈ L, c.isDigit = false) (hm : m ≤ i64Max) :
    templateOf (L ++ natChars m) = L ++ braces ∧
    extractNums (L ++ natChars m) = [m] := by
  have hD : runs (natChars m) = [(true, natChars m)] := by
    have h := runs_natChars_append m [] (Or.inl rfl)
    simpa using h
  have hr : runs (L ++ natChars m) = [(false, L), (true, natChars m)] := by
    rw [runs_append_nondigit L (natChars m) hne hnd (Or.inr ⟨_, _, hD⟩), hD]
  rw [templateOf, extractNums, hr]
  constructor
  · simp [templateOfRuns]
  · simp [numsOfRuns, parseI64_natChars m hm]

/-- Template and numbers of a `literal ++ number ++ literal` key. -/
theorem template_shapeC (L1 : List Char) (m : Nat) (L2 : List Char)
    (hne1 : L1 ≠ []) (hnd1 : ∀ c ∈ L1, c.isDigit = false)
    (hne2 : L2 ≠ []) (hnd2 : ∀ c ∈ L2, c.isDigit = false) (hm : m ≤ i64Max) :
    templateOf (L1 ++ natChars m ++ L2) = L1 ++ braces ++ L2 ∧
    extractNums (L1 ++ natChars m ++ L2) = [m] := by
  have h2 : runs L2 = [(false, L2)] := runs_lit L2 hne2 hnd2
  have hD : runs (natChars m ++ L2) = [(true, natChars m), (false, L2)] := by
    rw [runs_natChars_append m L2 (Or.inr ⟨_, _, h2⟩), h2]
  have hr : runs (L1 ++ (natChars m ++ L2)) =
      [(false, L1), (true, natChars m), (false, L2)] := by
    rw [runs_append_nondigit L1 (natChars m ++ L2) hne1 hnd1 (Or.inr ⟨_, _, hD⟩), hD]
  rw [List.append_assoc, templateOf, extractNums, hr]
  constructor
  · simp [templateOfRuns, List.append_assoc]
  · simp [numsOfRuns, parseI64_natChars m hm]

/-- Template and numbers of a `literal ++ number ++ literal ++ number` key. -/
theorem template_shapeD (L1 : List Char) (m1 : Nat) (L2 : List Char) (m2 : Nat)
    (hne1 : L1 ≠ []) (hnd1 : ∀ c ∈ L1, c.isDigit = false)
    (hne2 : L2 ≠ []) (hnd2 : ∀ c ∈ L2, c.isDigit = false)
    (hm1 : m1 ≤ i64Max) (hm2 : m2 ≤ i64Max) :
    templateOf (L1 ++ natChars m1 ++ L2 ++ natChars m2) =
      L1 ++ braces ++ L2 ++ braces ∧
    extractNums (L1 ++ natChars m1 ++ L2 ++ natChars m2) = [m1, m2] := by
  have hD2 : runs (natChars m2) = [(true, natChars m2)] := by
    have h := runs_natChars_append m2 [] (Or.inl rfl)
    simpa using h
  have hL2 : runs (L2 ++ natChars m2) = [(false, L2), (true, natChars m2)] := by
    rw [runs_append_nondigit L2 (natChars m2) hne2 hnd2 (Or.inr ⟨_, _, hD2⟩), hD2]
  have hD1 : runs (natChars m1 ++ (L2 ++ natChars m2)) =
      [(true, natChars m1), (false, L2), (true, natChars m2)] := by
    rw [runs_natChars_append m1 (L2 ++ natChars m2) (Or.inr ⟨_, _, hL2⟩), hL2]
  have hr : runs (L1 ++ (natChars m1 ++ (L2 ++ natChars m2))) =
      [(false, L1), (true, natChars m1), (false, L2), (true, natChars m2)] := by
    rw [runs_append_nondigit L1 (natChars m1 ++ (L2 ++ natChars m2)) hne1 hnd1
      (Or.inr ⟨_, _, hD1⟩), hD1]
  rw [List.append_assoc, List.append_assoc, templateOf, extractNums, hr]
  constructor
  · simp [templateOfRuns, List.append_assoc]
  · simp [numsOfRuns, parseI64_natChars m1 hm1, parseI64_natChars m2 hm2]

/-- The value bounds under which the decoder can reconstruct a key: ids are
non-negative (a `-` sign would corrupt the template), block heights fit in
`i64` (larger u64 values fail `parse::<i64>()`), and module ids fit in `u16`
(their Rust type). -/
def ConfigKey.valid : ConfigKey → Prop
  | .Primary => True
  | .IndexerCopyTailSync nid => 0 ≤ nid ∧ nid ≤ (i64Max : Int)
  | .IndexerCopyChunkSync nid bh => (0 ≤ nid ∧ nid ≤ (i64Max : Int)) ∧ bh ≤ i64Max
  | .IndexerProcessTailSync nid => 0 ≤ nid ∧ nid ≤ (i64Max : Int)
  | .IndexerProcessChunkSync nid bh => (0 ≤ nid ∧ nid ≤ (i64Max : Int)) ∧ bh ≤ i64Max
  | .IndexerProcessModuleSync nid mid => (0 ≤ nid ∧ nid ≤ (i64Max : Int)) ∧ mid < 2 ^ 16
  | .IndexerProcessModuleSynced nid mid => (0 ≤ nid ∧ nid ≤ (i64Max : Int)) ∧ mid < 2 ^ 16
  | .IndexerUpstreamSync nid aid =>
      (0 ≤ nid ∧ nid ≤ (i64Max : Int)) ∧ (0 ≤ aid ∧ aid ≤ (i64Max : Int))
  | .IndexerProgress nid => 0 ≤ nid ∧ nid ≤ (i64Max : Int)
  | .BlockHeight nid => 0 ≤ nid ∧ nid ≤ (i64Max : Int)
  | .NetworksUpdated => True
  | .NewlyAddedAddress nid aid =>
      (0 ≤ nid ∧ nid ≤ (i64Max : Int)) ∧ (0 ≤ aid ∧ aid ≤ (i64Max : Int))

theorem i64Max_eq : i64Max = 9223372036854775807 := by
  norm_num [i64Max]

instance (k : ConfigKey) : Decidable k.valid := by
  cases k <;> simp only [ConfigKey.valid] <;> infer_instance

/-- The encoder and decoder are mutually inverse on every in-bounds key. -/
theorem configKey_roundtrip (k : ConfigKey) (h : k.valid) :
    parseKey (renderKey k) = some k := by
  cases k with
  | Primary =>
    obtain ⟨ht, hn⟩ := template_shapeA "primary".data (by decide) (by decide)
    simp only [renderKey, parseKey, ht, hn]
    simp
  | IndexerCopyTailSync nid =>
    obtain ⟨h0, h1⟩ := h
    have hm : nid.toNat ≤ i64Max := by
      rw [i64Max_eq] at h1 ⊢
      omega
    obtain ⟨ht, hn⟩ := template_shapeB "indexer_copy_tail_sync_n".data nid.toNat (by decide) (by decide) hm
    simp only [renderKey, intChars_nonneg nid h0, parseKey, ht, hn]
    rw [if_neg (by decide)]
    simp [List.getD, Int.toNat_of_nonneg h0]
  | IndexerCopyChunkSync nid bh =>
    obtain ⟨⟨h0, h1⟩, h2⟩ := h
    have hm : nid.toNat ≤ i64Max := by
      rw [i64Max_eq] at h1 ⊢
      omega
    have hm2 : bh ≤ i64Max := h2
    obtain ⟨ht, hn⟩ := template_shapeD "indexer_copy_chunk_sync_n".data nid.toNat "_b".data bh (by decide) (by decide) (by decide) (by decide) hm hm2
    simp only [renderKey, intChars_nonneg nid h0, parseKey, ht, hn]
    rw [if_neg (by decide)]
    rw [if_neg (fun hc => absurd hc.1 (by decide))]
    simp [List.getD, Int.toNat_of_nonneg h0]
  | IndexerProcessTailSync nid =>
    obtain ⟨h0, h1⟩ := h
    have hm : nid.toNat ≤ i64Max := by
      rw [i64Max_eq] at h1 ⊢
      omega
    obtain ⟨ht, hn⟩ := template_shapeB "indexer_process_tail_sync_n".data nid.toNat (by decide) (by decide) hm
    simp only [renderKey, intChars_nonneg nid h0, parseKey, ht, hn]
    rw [if_neg (by decide)]
    rw [if_neg (fun hc => absurd hc.1 (by decide))]
    rw [if_neg (fun hc => absurd hc.1 (by decide))]
    simp [List.getD, Int.toNat_of_nonneg h0]
  | IndexerProcessChunkSync nid bh =>
    obtain ⟨⟨h0, h1⟩, h2⟩ := h
    have hm : nid.toNat ≤ i64Max := by
      rw [i64Max_eq] at h1 ⊢
      omega
    have hm2 : bh ≤ i64Max := h2
    obtain ⟨ht, hn⟩ := template_shapeD "indexer_process_chunk_sync_n".data nid.toNat "_b".data bh (by decide) (by decide) (by decide) (by decide) hm hm2
    simp only [renderKey, intChars_nonneg nid h0, parseKey, ht, hn]
    rw [if_neg (by decide)]
    rw [if_neg (fun hc => absurd hc.1 (by decide))]
    rw [if_neg (fun hc => absurd hc.1 (by decide))]
    rw [if_neg (fun hc => absurd hc.1 (by decide))]
    simp [List.getD, Int.toNat_of_nonneg h0]
  | IndexerProcessModuleSync nid mid =>
    obtain ⟨⟨h0, h1⟩, h2⟩ := h
    have hm : nid.toNat ≤ i64Max := by
      rw [i64Max_eq] at h1 ⊢
      omega
    have hm2 : mid ≤ i64Max := by
      rw [i64Max_eq]
      omega
    obtain ⟨ht, hn⟩ := template_shapeD "indexer_process_module_sync_n".data nid.toNat "_m".data mid (by decide) (by decide) (by decide) (by decide) hm hm2
    simp only [renderKey, intChars_nonneg nid h0, parseKey, ht, hn]
    rw [if_neg (by decide)]
    rw [if_neg (fun hc => absurd hc.1 (by decide))]
    rw [if_neg (fun hc => absurd hc.1 (by decide))]
    rw [if_neg (fun hc => absurd hc.1 (by decide))]
    rw [if_neg (fun hc => absurd hc.1 (by decide))]
    have h2n : mid < 65536 := by
      norm_num at h2
      exact h2
    simp [List.getD, Int.toNat_of_nonneg h0, Nat.mod_eq_of_lt h2n]
  | IndexerProcessModuleSynced nid mid =>
    obtain ⟨⟨h0, h1⟩, h2⟩ := h
    have hm : nid.toNat ≤ i64Max := by
      rw [i64Max_eq] at h1 ⊢
      omega
    have hm2 : mid ≤ i64Max := by
      rw [i64Max_eq]
      omega
    obtain ⟨ht, hn⟩ := template_shapeD "indexer_process_module_synced_n".data nid.toNat "_m".data mid (by decide) (by decide) (by decide) (by decide) hm hm2
    simp only [renderKey, intChars_nonneg nid h0, parseKey, ht, hn]
    rw [if_neg (by decide)]
    rw [if_neg (fun hc => absurd hc.1 (by decide))]
    rw [if_neg (fun hc => absurd hc.1 (by decide))]
    rw [if_neg (fun hc => absurd hc.1 (by decide))]
    rw [if_neg (fun hc => absurd hc.1 (by decide))]
    rw [if_neg (fun hc => absurd hc.1 (by decide))]
    have h2n : mid < 65536 := by
      norm_num at h2
      exact h2
    simp [List.getD, Int.toNat_of_nonneg h0, Nat.mod_eq_of_lt h2n]
  | IndexerUpstreamSync nid aid =>
    obtain ⟨⟨h0, h1⟩, h2⟩ := h
    have hm : nid.toNat ≤ i64Max := by
      rw [i64Max_eq] at h1 ⊢
      omega
    obtain ⟨h20, h21⟩ := h2
    have hm2 : aid.toNat ≤ i64Max := by
      rw [i64Max_eq] at h21 ⊢
      omega
    obtain ⟨ht, hn⟩ := template_shapeD "indexer_upstream_sync_n".data nid.toNat "_a".data aid.toNat (by decide) (by decide) (by decide) (by decide) hm hm2
    simp only [renderKey, intChars_nonneg nid h0, intChars_nonneg aid h20, parseKey, ht, hn]
    rw [if_neg (by decide)]
    rw [if_neg (fun hc => absurd hc.1 (by decide))]
    rw [if_neg (fun hc => absurd hc.1 (by decide))]
    rw [if_neg (fun hc => absurd hc.1 (by decide))]
    rw [if_neg (fun hc => absurd hc.1 (by decide))]
    rw [if_neg (fun hc => absurd hc.1 (by decide))]
    rw [if_neg (fun hc => absurd hc.1 (by decide))]
    simp [List.getD, Int.toNat_of_nonneg h0, Int.toNat_of_nonneg h20]
  | IndexerProgress nid =>
    obtain ⟨h0, h1⟩ := h
    have hm : nid.toNat ≤ i64Max := by
      rw [i64Max_eq] at h1 ⊢
      omega
    obtain ⟨ht, hn⟩ := template_shapeC "indexer_n".data nid.toNat "_progress".data (by decide) (by decide) (by decide) (by decide) hm
    simp only [renderKey, intChars_nonneg nid h0, parseKey, ht, hn]
    rw [if_neg (by decide)]
    rw [if_neg (fun hc => absurd hc.1 (by decide))]
    rw [if_neg (fun hc => absurd hc.1 (by decide))]
    rw [if_neg (fun hc => absurd hc.1 (by decide))]
    rw [if_neg (fun hc => absurd hc.1 (by decide))]
    rw [if_neg (fun hc => absurd hc.1 (by decide))]
    rw [if_neg (fun hc => absurd hc.1 (by decide))]
    rw [if_neg (fun hc => absurd hc.1 (by decide))]
    simp [List.getD, Int.toNat_of_nonneg h0]
  | BlockHeight nid =>
    obtain ⟨h0, h1⟩ := h
    have hm : nid.toNat ≤ i64Max := by
      rw [i64Max_eq] at h1 ⊢
      omega
    obtain ⟨ht, hn⟩ := template_shapeB "block_height_n".data nid.toNat (by decide) (by decide) hm
    simp only [renderKey, intChars_nonneg nid h0, parseKey, ht, hn]
    rw [if_neg (by decide)]
    rw [if_neg (fun hc => absurd hc.1 (by decide))]
    rw [if_neg (fun hc => absurd hc.1 (by decide))]
    rw [if_neg (fun hc => absurd hc.1 (by decide))]
    rw [if_neg (fun hc => absurd hc.1 (by decide))]
    rw [if_neg (fun hc => absurd hc.1 (by decide))]
    rw [if_neg (fun hc => absurd hc.1 (by decide))]
    rw [if_neg (fun hc => absurd hc.1 (by decide))]
    rw [if_neg (fun hc => absurd hc.1 (by decide))]
    simp [List.getD, Int.toNat_of_nonneg h0]
  | NetworksUpdated =>
    obtain ⟨ht, hn⟩ := template_shapeA "networks_updated".data (by decide) (by decide)
    simp only [renderKey, parseKey, ht, hn]
    rw [if_neg (by decide)]
    rw [if_neg (fun hc => absurd hc.1 (by decide))]
    rw [if_neg (fun hc => absurd hc.1 (by decide))]
    rw [if_neg (fun hc => absurd hc.1 (by decide))]
    rw [if_neg (fun hc => absurd hc.1 (by decide))]
    rw [if_neg (fun hc => absurd hc.1 (by decide))]
    rw [if_neg (fun hc => absurd hc.1 (by decide))]
    rw [if_neg (fun hc => absurd hc.1 (by decide))]
    rw [if_neg (fun hc => absurd hc.1 (by decide))]
    rw [if_neg (fun hc => absurd hc.1 (by decide))]
    simp
  | NewlyAddedAddress nid aid =>
    obtain ⟨⟨h0, h1⟩, h2⟩ := h
    have hm : nid.toNat ≤ i64Max := by
      rw [i64Max_eq] at h1 ⊢
      omega
    obtain ⟨h20, h21⟩ := h2
    have hm2 : aid.toNat ≤ i64Max := by
      rw [i64Max_eq] at h21 ⊢
      omega
    obtain ⟨ht, hn⟩ := template_shapeD "newly_added_address_n".data nid.toNat "_a".data aid.toNat (by decide) (by decide) (by decide) (by decide) hm hm2
    simp only [renderKey, intChars_nonneg nid h0, intChars_nonneg aid h20, parseKey, ht, hn]
    rw [if_neg (by decide)]
    rw [if_neg (fun hc => absurd hc.1 (by decide))]
    rw [if_neg (fun hc => absurd hc.1 (by decide))]
    rw [if_neg (fun hc => absurd hc.1 (by decide))]
    rw [if_neg (fun hc => absurd hc.1 (by decide))]
    rw [if_neg (fun hc => absurd hc.1 (by decide))]
    rw [if_neg (fun hc => absurd hc.1 (by decide))]
    rw [if_neg (fun hc => absurd hc.1 (by decide))]
    rw [if_neg (fun hc => absurd hc.1 (by decide))]
    rw [if_neg (fun hc => absurd hc.1 (by decide))]
    rw [if_neg (by decide)]
    simp [List.getD, Int.toNat_of_nonneg h0, Int.toNat_of_nonneg h20]

/-- Each constructor's digit-run template as the decoder sees it. -/
def keyTemplate : ConfigKey → List Char
  | .Primary => "primary".data
  | .IndexerCopyTailSync _ => "indexer_copy_tail_sync_n".data ++ braces
  | .IndexerCopyChunkSync _ _ => "indexer_copy_chunk_sync_n".data ++ braces ++ "_b".data ++ braces
  | .IndexerProcessTailSync _ => "indexer_process_tail_sync_n".data ++ braces
  | .IndexerProcessChunkSync _ _ => "indexer_process_chunk_sync_n".data ++ braces ++ "_b".data ++ braces
  | .IndexerProcessModuleSync _ _ => "indexer_process_module_sync_n".data ++ braces ++ "_m".data ++ braces
  | .IndexerProcessModuleSynced _ _ => "indexer_process_module_synced_n".data ++ braces ++ "_m".data ++ braces
  | .IndexerUpstreamSync _ _ => "indexer_upstream_sync_n".data ++ braces ++ "_a".data ++ braces
  | .IndexerProgress _ => "indexer_n".data ++ braces ++ "_progress".data
  | .BlockHeight _ => "block_height_n".data ++ braces
  | .NetworksUpdated => "networks_updated".data
  | .NewlyAddedAddress _ _ => "newly_added_address_n".data ++ braces ++ "_a".data ++ braces

/-- The digit-run template of every rendered in-bounds key. -/
theorem templateOf_renderKey (k : ConfigKey) (h : k.valid) :
    templateOf (renderKey k) = keyTemplate k := by
  cases k with
  | Primary =>
    exact (template_shapeA "primary".data (by decide) (by decide)).1
  | IndexerCopyTailSync nid =>
    obtain ⟨h0, h1⟩ := h
    have hm : nid.toNat ≤ i64Max := by
      rw [i64Max_eq] at h1 ⊢
      omega
    rw [renderKey, intChars_nonneg nid h0, keyTemplate]
    exact (template_shapeB "indexer_copy_tail_sync_n".data nid.toNat (by decide) (by decide) hm).1
  | IndexerCopyChunkSync nid bh =>
    obtain ⟨⟨h0, h1⟩, h2⟩ := h
    have hm : nid.toNat ≤ i64Max := by
      rw [i64Max_eq] at h1 ⊢
      omega
    have hm2 : bh ≤ i64Max := h2
    rw [renderKey, intChars_nonneg nid h0, keyTemplate]
    exact (template_shapeD "indexer_copy_chunk_sync_n".data nid.toNat "_b".data bh (by decide) (by decide) (by decide) (by decide) hm hm2).1
  | IndexerProcessTailSync nid =>
    obtain ⟨h0, h1⟩ := h
    have hm : nid.toNat ≤ i64Max := by
      rw [i64Max_eq] at h1 ⊢
      omega
    rw [renderKey, intChars_nonneg nid h0, keyTemplate]
    exact (template_shapeB "indexer_process_tail_sync_n".data nid.toNat (by decide) (by decide) hm).1
  | IndexerProcessChunkSync nid bh =>
    obtain ⟨⟨h0, h1⟩, h2⟩ := h
    have hm : nid.toNat ≤ i64Max := by
      rw [i64Max_eq] at h1 ⊢
      omega
    have hm2 : bh ≤ i64Max := h2
    rw [renderKey, intChars_nonneg nid h0, keyTemplate]
    exact (template_shapeD "indexer_process_chunk_sync_n".data nid.toNat "_b".data bh (by decide) (by decide) (by decide) (by decide) hm hm2).1
  | IndexerProcessModuleSync nid mid =>
    obtain ⟨⟨h0, h1⟩, h2⟩ := h
    have hm : nid.toNat ≤ i64Max := by
      rw [i64Max_eq] at h1 ⊢
      omega
    have hm2 : mid ≤ i64Max := by
      rw [i64Max_eq]
      omega
    rw [renderKey, intChars_nonneg nid h0, keyTemplate]
    exact (template_shapeD "indexer_process_module_sync_n".data nid.toNat "_m".data mid (by decide) (by decide) (by decide) (by decide) hm hm2).1
  | IndexerProcessModuleSynced nid mid =>
    obtain ⟨⟨h0, h1⟩, h2⟩ := h
    have hm : nid.toNat ≤ i64Max := by
      rw [i64Max_eq] at h1 ⊢
      omega
    have hm2 : mid ≤ i64Max := by
      rw [i64Max_eq]
      omega
    rw [renderKey, intChars_nonneg nid h0, keyTemplate]
    exact (template_shapeD "indexer_process_module_synced_n".data nid.toNat "_m".data mid (by decide) (by decide) (by decide) (by decide) hm hm2).1
  | IndexerUpstreamSync nid aid =>
    obtain ⟨⟨h0, h1⟩, h2⟩ := h
    have hm : nid.toNat ≤ i64Max := by
      rw [i64Max_eq] at h1 ⊢
      omega
    obtain ⟨h20, h21⟩ := h2
    have hm2 : aid.toNat ≤ i64Max := by
      rw [i64Max_eq] at h21 ⊢
      omega
    rw [renderKey, intChars_nonneg nid h0, intChars_nonneg aid h20, keyTemplate]
    exact (template_shapeD "indexer_upstream_sync_n".data nid.toNat "_a".data aid.toNat (by decide) (by decide) (by decide) (by decide) hm hm2).1
  | IndexerProgress nid =>
    obtain ⟨h0, h1⟩ := h
    have hm : nid.toNat ≤ i64Max := by
      rw [i64Max_eq] at h1 ⊢
      omega
    rw [renderKey, intChars_nonneg nid h0, keyTemplate]
    exact (template_shapeC "indexer_n".data nid.toNat "_progress".data (by decide) (by decide) (by decide) (by decide) hm).1
  | BlockHeight nid =>
    obtain ⟨h0, h1⟩ := h
    have hm : nid.toNat ≤ i64Max := by
      rw [i64Max_eq] at h1 ⊢
      omega
    rw [renderKey, intChars_nonneg nid h0, keyTemplate]
    exact (template_shapeB "block_height_n".data nid.toNat (by decide) (by decide) hm).1
  | NetworksUpdated =>
    exact (template_shapeA "networks_updated".data (by decide) (by decide)).1
  | NewlyAddedAddress nid aid =>
    obtain ⟨⟨h0, h1⟩, h2⟩ := h
    have hm : nid.toNat ≤ i64Max := by
      rw [i64Max_eq] at h1 ⊢
      omega
    obtain ⟨h20, h21⟩ := h2
    have hm2 : aid.toNat ≤ i64Max := by
      rw [i64Max_eq] at h21 ⊢
      omega
    rw [renderKey, intChars_nonneg nid h0, intChars_nonneg aid h20, keyTemplate]
    exact (template_shapeD "newly_added_address_n".data nid.toNat "_a".data aid.toNat (by decide) (by decide) (by decide) (by decide) hm hm2).1

/-- The twelve templates the code actually renders (constructor order). -/
def actualTemplates : List (List Char) :=
  ["primary".data,
   "indexer_copy_tail_sync_n".data ++ braces,
   "indexer_copy_chunk_sync_n".data ++ braces ++ "_b".data ++ braces,
   "indexer_process_tail_sync_n".data ++ braces,
   "indexer_process_chunk_sync_n".data ++ braces ++ "_b".data ++ braces,
   "indexer_process_module_sync_n".data ++ braces ++ "_m".data ++ braces,
   "indexer_process_module_synced_n".data ++ braces ++ "_m".data ++ braces,
   "indexer_upstream_sync_n".data ++ braces ++ "_a".data ++ braces,
   "indexer_n".data ++ braces ++ "_progress".data,
   "block_height_n".data ++ braces,
   "networks_updated".data,
   "newly_added_address_n".data ++ braces ++ "_a".data ++ braces]

/-- Modelled from the spec: the key templates §4.6 lists, with the numeric
placeholders (`n{nid}`, `b{max}`, `m{mid}`, `a{aid}`) normalised to the same
digit-run placeholder the decoder uses, so the two template sets are directly
comparable. -/
def spec46Templates : List (List Char) :=
  ["primary".data,
   "networks_updated".data,
   "block_height_n".data ++ braces,
   "indexer_sync_tail_n".data ++ braces,
   "indexer_sync_chunk_n".data ++ braces ++ "_b".data ++ braces,
   "indexer_sync_progress_n".data ++ braces,
   "indexer_process_tail_n".data ++ braces,
   "indexer_process_chunk_n".data ++ braces ++ "_b".data ++ braces,
   "indexer_process_module_n".data ++ braces ++ "_m".data ++ braces,
   "indexer_process_module_done_n".data ++ braces ++ "_m".data ++ braces,
   "indexer_process_progress_n".data ++ braces,
   "indexer_link_n".data ++ braces ++ "_a".data ++ braces,
   "newly_added_address_n".data ++ braces ++ "_a".data ++ braces]

/-- **C8 counterexample.** The rendered forms are not the §4.6 templates: the
key `IndexerCopyTailSync 123` renders to the template
`indexer_copy_tail_sync_n` + placeholder, which matches none of the §4.6
templates (the code's sync-stage keys are `indexer_copy_*_sync_*`, its
process-module keys `indexer_process_module_sync*`, its link keys
`indexer_upstream_sync_*`, its progress key `indexer_n{nid}_progress`) — even
though the encoder/decoder round-trip does hold for this key. -/
theorem configKey_templates_counterexample :
    templateOf (renderKey (ConfigKey.IndexerCopyTailSync 123)) ∉ spec46Templates ∧
    parseKey (renderKey (ConfigKey.IndexerCopyTailSync 123)) =
      some (ConfigKey.IndexerCopyTailSync 123) := by
  constructor
  · rw [templateOf_renderKey (ConfigKey.IndexerCopyTailSync 123) (by decide)]
    decide
  · exact configKey_roundtrip (ConfigKey.IndexerCopyTailSync 123) (by decide)

/-- **C8 (amended).** For every `ConfigKey` whose numeric components are
renderable and re-parseable (ids non-negative, block heights within `i64`,
module ids within `u16`), rendering and parsing are mutually inverse; and the
set of rendered digit-run templates is exactly the twelve templates of the
code (`primary`, `networks_updated`, `block_height_n{nid}`,
`indexer_copy_tail_sync_n{nid}`, `indexer_copy_chunk_sync_n{nid}_b{max}`,
`indexer_process_tail_sync_n{nid}`, `indexer_process_chunk_sync_n{nid}_b{max}`,
`indexer_process_module_sync_n{nid}_m{mid}`,
`indexer_process_module_synced_n{nid}_m{mid}`,
`indexer_upstream_sync_n{nid}_a{aid}`, `indexer_n{nid}_progress`,
`newly_added_address_n{nid}_a{aid}`), not the list in §4.6. -/
theorem configKey_encoding_spec :
    (∀ k : ConfigKey, k.valid → parseKey (renderKey k) = some k) ∧
    (∀ k : ConfigKey, k.valid → templateOf (renderKey k) ∈ actualTemplates) ∧
    (∀ t ∈ actualTemplates, ∃ k : ConfigKey, k.valid ∧ templateOf (renderKey k) = t) := by
  refine ⟨configKey_roundtrip, ?_, ?_⟩
  · intro k h
    rw [templateOf_renderKey k h]
    cases k <;> simp [keyTemplate, actualTemplates]
  · intro t ht
    simp only [actualTemplates, List.mem_cons, List.not_mem_nil, or_false] at ht
    rcases ht with rfl | rfl | rfl | rfl | rfl | rfl | rfl | rfl | rfl | rfl | rfl | rfl
    · exact ⟨.Primary, trivial, templateOf_renderKey _ trivial⟩
    · exact ⟨.IndexerCopyTailSync 1, by decide, templateOf_renderKey _ (by decide)⟩
    · exact ⟨.IndexerCopyChunkSync 1 1, by decide, templateOf_renderKey _ (by decide)⟩
    · exact ⟨.IndexerProcessTailSync 1, by decide, templateOf_renderKey _ (by decide)⟩
    · exact ⟨.IndexerProcessChunkSync 1 1, by decide, templateOf_renderKey _ (by decide)⟩
    · exact ⟨.IndexerProcessModuleSync 1 1, by decide, templateOf_renderKey _ (by decide)⟩
    · exact ⟨.IndexerProcessModuleSynced 1 1, by decide, templateOf_renderKey _ (by decide)⟩
    · exact ⟨.IndexerUpstreamSync 1 1, by decide, templateOf_renderKey _ (by decide)⟩
    · exact ⟨.IndexerProgress 1, by decide, templateOf_renderKey _ (by decide)⟩
    · exact ⟨.BlockHeight 1, by decide, templateOf_renderKey _ (by decide)⟩
    · exact ⟨.NetworksUpdated, trivial, templateOf_renderKey _ trivial⟩
    · exact ⟨.NewlyAddedAddress 1 1, by decide, templateOf_renderKey _ (by decide)⟩

/-- **C8 witness.** The round-trip at the concrete key
`IndexerCopyChunkSync 123 456` (rendered `indexer_copy_chunk_sync_n123_b456`),
with the bounds discharged. -/
theorem configKey_encoding_spec_witness :
    parseKey (renderKey (ConfigKey.IndexerCopyChunkSync 123 456)) =
      some (ConfigKey.IndexerCopyChunkSync 123 456) :=
  configKey_encoding_spec.1 (ConfigKey.IndexerCopyChunkSync 123 456) (by decide)

/-! ## Sync / Process stage transition system
(src/indexer/src/sync.rs, src/indexer/src/process.rs, and
`Indexer::get_block_chunk_ranges` in src/indexer/src/lib.rs)

Per-network state, one atomic step per durable commit point of the source:

* `syncFirstRun` — the first-run branch of `Indexer::sync`: create the chunk
  configs from `get_block_chunk_ranges` and fast-forward
  `indexer_sync_tail` to `block_height - 1` (the chain height read at that
  moment is the step's `bh` parameter; the two writes are one step, which
  only removes a benign intermediate state);
* `syncTailStep` — the sync tail worker extracts block `tail + 1` (committing
  its BlobStore partition; `extract_block` commits the partition files even
  when the RPC lookups fail) and the main loop persists the new tail.  The
  block-height pacing of the worker only delays this step, so it is soundly
  omitted (more behaviours are admitted, and the invariants are proved over
  all of them);
* `syncChunkStep` / `syncChunkFinish` — a sync chunk worker extracts
  `min + 1` and pushes `(min+1, max)`; the main loop updates the chunk config
  while `min+1 < max` and deletes the key when `min+1 = max`.  A chunk with
  `min ≥ max` is never pushed by the sync worker (it breaks immediately), so
  no transition touches it;
* `processFirstRun` / `processTailStep` / `processChunkStep` /
  `processChunkFinish` — the corresponding process-stage commits.  All carry
  the scheduling barrier of `Indexer::process` (a sync tail exists and is
  positive, and no sync chunk keys remain) — the barrier is checked at
  scheduling time in the source and is stable once true, so attaching it to
  every step is equivalent.  The process worker advances its tail only while
  `block_height + 1 ≤ indexer_sync_tail`, re-read each block; module-range
  workers only touch module config keys and are omitted.

Chunk configs are keyed by their `max`; `List.replace` / `List.erase` model
the keyed update and delete.  `u64sub1` is the wrapping `block_height - 1`
of the source (`u64` arithmetic). -/

/-- Wrapping `u64` decrement (`block_height - 1` can wrap at height `0`). -/
def u64sub1 (n : Nat) : Nat :=
  if n = 0 then 2 ^ 64 - 1 else n - 1

/-- The chunk-building loop of `Indexer::get_block_chunk_ranges`: `k`
iterations remain; current `(min, max)`; the final iteration caps `max` at
`last = block_height - 1`. -/
def rangesGo (mn mx size last : Nat) : Nat → List (Nat × Nat)
  | 0 => []
  | 1 => [(mn, last)]
  | Nat.succ (Nat.succ k) => (mn, mx) :: rangesGo mx (mx + size) size last (k + 1)

/-- `Indexer::get_block_chunk_ranges`: `cpu_count - 1` chunks of size
`(block_height - 1) / chunks` (the `f64` floor division is modelled as exact
natural division; the proofs below use only the first `min`, adjacency, and
the final `max`, none of which the rounding can change). -/
def getBlockChunkRanges (cpu bh : Nat) : List (Nat × Nat) :=
  let chunks := cpu - 1
  let size := u64sub1 bh / chunks
  rangesGo 0 size size (u64sub1 bh) chunks

/-- Per-network durable state: the config cursors and chunk keys of both
stages plus the set of committed BlobStore partitions.  A missing config row
reads as `0` (`unwrap_or(0)` in the source). -/
structure IndexerState where
  syncTail : Nat
  syncChunks : List (Nat × Nat)
  partitions : List Nat
  processTail : Nat
  processChunks : List (Nat × Nat)
  deriving Repr, DecidableEq

/-- One atomic commit of the two stage loops (see the section comment). -/
inductive Step (cpu : Nat) : IndexerState → IndexerState → Prop where
  | syncFirstRun (σ : IndexerState) (bh : Nat)
      (hTail : σ.syncTail = 0) (hChunks : σ.syncChunks = []) (hcpu : 0 < cpu) :
      Step cpu σ { σ with syncChunks := getBlockChunkRanges cpu bh,
                          syncTail := u64sub1 bh }
  | syncTailStep (σ : IndexerState) :
      Step cpu σ { σ with syncTail := σ.syncTail + 1,
                          partitions := (σ.syncTail + 1) :: σ.partitions }
  | syncChunkStep (σ : IndexerState) (mn mx : Nat)
      (hmem : (mn, mx) ∈ σ.syncChunks) (hlt : mn + 1 < mx) :
      Step cpu σ { σ with partitions := (mn + 1) :: σ.partitions,
                          syncChunks := σ.syncChunks.replace (mn, mx) (mn + 1, mx) }
  | syncChunkFinish (σ : IndexerState) (mn mx : Nat)
      (hmem : (mn, mx) ∈ σ.syncChunks) (heq : mn + 1 = mx) :
      Step cpu σ { σ with partitions := (mn + 1) :: σ.partitions,
                          syncChunks := σ.syncChunks.erase (mn, mx) }
  | processFirstRun (σ : IndexerState)
      (hBarrierT : 0 < σ.syncTail) (hBarrierC : σ.syncChunks = [])
      (hTail : σ.processTail = 0) (hChunks : σ.processChunks = []) (hcpu : 0 < cpu) :
      Step cpu σ { σ with processChunks := getBlockChunkRanges cpu σ.syncTail,
                          processTail := σ.syncTail - 1 }
  | processTailStep (σ : IndexerState)
      (hBarrierT : 0 < σ.syncTail) (hBarrierC : σ.syncChunks = [])
      (hle : σ.processTail + 1 ≤ σ.syncTail) :
      Step cpu σ { σ with processTail := σ.processTail + 1 }
  | processChunkStep (σ : IndexerState) (mn mx : Nat)
      (hBarrierT : 0 < σ.syncTail) (hBarrierC : σ.syncChunks = [])
      (hmem : (mn, mx) ∈ σ.processChunks) (hlt : mn + 1 < mx) :
      Step cpu σ { σ with processChunks :=
                            σ.processChunks.replace (mn, mx) (mn + 1, mx) }
  | processChunkFinish (σ : IndexerState) (mn mx : Nat)
      (hBarrierT : 0 < σ.syncTail) (hBarrierC : σ.syncChunks = [])
      (hmem : (mn, mx) ∈ σ.processChunks) (hge : mx ≤ mn + 1) :
      Step cpu σ { σ with processChunks := σ.processChunks.erase (mn, mx) }

/-- Reachability from the fresh-network state (no config rows, no
partitions). -/
inductive Reach (cpu : Nat) : IndexerState → Prop where
  | init : Reach cpu ⟨0, [], [], 0, []⟩
  | step {σ σ' : IndexerState} : Reach cpu σ → Step cpu σ σ' → Reach cpu σ'

/-- Every block in `(0, syncTail]` is either already extracted or covered by a
pending sync chunk `(min, max]` — the inductive strengthening of the partition
invariant. -/
def ChunkCover (σ : IndexerState) : Prop :=
  ∀ h, 0 < h → h ≤ σ.syncTail →
    h ∈ σ.partitions ∨ ∃ p ∈ σ.syncChunks, p.1 < h ∧ h ≤ p.2

/-- The chunks built by `rangesGo` cover `(mn, last]` whenever at least one
chunk is produced, regardless of the chunk size. -/
theorem rangesGo_cover (k : Nat) : ∀ mn mx size last, 1 ≤ k →
    ∀ h, mn < h → h ≤ last →
      ∃ p ∈ rangesGo mn mx size last k, p.1 < h ∧ h ≤ p.2 := by
  induction k with
  | zero => omega
  | succ k ih =>
    intro mn mx size last _ h hlo hhi
    match k with
    | 0 => exact ⟨(mn, last), by simp [rangesGo], hlo, hhi⟩
    | k + 1 =>
      rw [rangesGo]
      by_cases hcase : h ≤ mx
      · exact ⟨(mn, mx), by simp, hlo, hcase⟩
      · obtain ⟨p, hp, hp1, hp2⟩ :=
          ih mx (mx + size) size last (by omega) h (by omega) hhi
        exact ⟨p, List.mem_cons_of_mem _ hp, hp1, hp2⟩

/-- With at least two CPUs, the initial chunking covers all of
`(0, block_height - 1]`. -/
theorem getBlockChunkRanges_cover (cpu bh : Nat) (hcpu : 2 ≤ cpu) :
    ∀ h, 0 < h → h ≤ u64sub1 bh →
      ∃ p ∈ getBlockChunkRanges cpu bh, p.1 < h ∧ h ≤ p.2 := by
  intro h hlo hhi
  exact rangesGo_cover (cpu - 1) 0 (u64sub1 bh / (cpu - 1)) (u64sub1 bh / (cpu - 1))
    (u64sub1 bh) (by omega) h hlo hhi

/-- Replacing an element keeps the replacement in the list. -/
theorem mem_replace_self (l : List (Nat × Nat)) (a b : Nat × Nat)
    (h : a ∈ l) : b ∈ l.replace a b := by
  induction l with
  | nil => simp at h
  | cons x xs ih =>
    by_cases hx : a = x
    · subst hx
      simp [List.replace_cons]
    · have hbeq : (a == x) = false := beq_eq_false_iff_ne.mpr hx
      rw [List.replace_cons, hbeq]
      show b ∈ x :: xs.replace a b
      rcases List.mem_cons.mp h with rfl | hmem
      · exact absurd rfl hx
      · exact List.mem_cons_of_mem _ (ih hmem)

/-- Replacing one element keeps every other element. -/
theorem mem_replace_of_ne (l : List (Nat × Nat)) (a b c : Nat × Nat)
    (hc : c ∈ l) (hne : c ≠ a) : c ∈ l.replace a b := by
  induction l with
  | nil => simp at hc
  | cons x xs ih =>
    by_cases hx : a = x
    · subst hx
      simp only [List.replace_cons, beq_self_eq_true]
      show c ∈ b :: xs
      rcases List.mem_cons.mp hc with rfl | hmem
      · exact absurd rfl hne
      · exact List.mem_cons_of_mem _ hmem
    · have hbeq : (a == x) = false := beq_eq_false_iff_ne.mpr hx
      rw [List.replace_cons, hbeq]
      show c ∈ x :: xs.replace a b
      rcases List.mem_cons.mp hc with rfl | hmem
      · exact List.mem_cons_self c _
      · exact List.mem_cons_of_mem _ (ih hmem)

/-- The inductive invariant: the process tail never passes the sync tail, and
pending sync chunks and partitions jointly cover `(0, syncTail]`. -/
theorem inv_reach (cpu : Nat) (hcpu : 2 ≤ cpu) (σ : IndexerState)
    (hr : Reach cpu σ) : σ.processTail ≤ σ.syncTail ∧ ChunkCover σ := by
  induction hr with
  | init =>
    refine ⟨Nat.le_refl 0, fun h hlo hhi => ?_⟩
    exact (Nat.lt_irrefl 0 (Nat.lt_of_lt_of_le hlo hhi)).elim
  | step hr hst ih =>
    obtain ⟨ihT, ihC⟩ := ih
    rename_i σ₀ σ₁
    cases hst with
    | syncFirstRun bh hTail hChunks hcpu' =>
      constructor
      · show σ₀.processTail ≤ u64sub1 bh
        rw [hTail] at ihT
        omega
      · intro h hlo hhi
        right
        exact getBlockChunkRanges_cover cpu bh hcpu h hlo hhi
    | syncTailStep =>
      refine ⟨?_, ?_⟩
      · show σ₀.processTail ≤ σ₀.syncTail + 1
        omega
      · intro h hlo hhi
        have hhi' : h ≤ σ₀.syncTail + 1 := hhi
        by_cases hc : h = σ₀.syncTail + 1
        · left
          rw [hc]
          exact List.mem_cons_self _ _
        · rcases ihC h hlo (by omega) with hp | ⟨p, hp, h1, h2⟩
          · left
            exact List.mem_cons_of_mem _ hp
          · right
            exact ⟨p, hp, h1, h2⟩
    | syncChunkStep mn mx hmem hlt =>
      refine ⟨ihT, ?_⟩
      intro h hlo hhi
      rcases ihC h hlo hhi with hp | ⟨p, hp, h1, h2⟩
      · left
        exact List.mem_cons_of_mem _ hp
      · by_cases hpe : p = (mn, mx)
        · subst hpe
          by_cases hh : h = mn + 1

          · left
            rw [hh]
            exact List.mem_cons_self _ _
          · right
            show ∃ p ∈ σ₀.syncChunks.replace (mn, mx) (mn + 1, mx), p.1 < h ∧ h ≤ p.2
            refine ⟨(mn + 1, mx),
              mem_replace_self σ₀.syncChunks (mn, mx) (mn + 1, mx) hmem, ?_, ?_⟩
            · show mn + 1 < h
              simp only at h1 h2
              omega
            · exact h2
        · right
          show ∃ q ∈ σ₀.syncChunks.replace (mn, mx) (mn + 1, mx), q.1 < h ∧ h ≤ q.2
          exact ⟨p, mem_replace_of_ne σ₀.syncChunks (mn, mx) (mn + 1, mx) p hp hpe, h1, h2⟩
    | syncChunkFinish mn mx hmem heq =>
      refine ⟨ihT, ?_⟩
      intro h hlo hhi
      rcases ihC h hlo hhi with hp | ⟨p, hp, h1, h2⟩
      · left
        exact List.mem_cons_of_mem _ hp
      · by_cases hpe : p = (mn, mx)
        · subst hpe
          left
          simp only at h1 h2
          have : h = mn + 1 := by omega
          rw [this]
          exact List.mem_cons_self _ _
        · right
          exact ⟨p, (List.mem_erase_of_ne hpe).mpr hp, h1, h2⟩
    | processFirstRun hBT hBC hT hC hcpu' =>
      refine ⟨?_, ?_⟩
      · show σ₀.syncTail - 1 ≤ σ₀.syncTail
        omega
      · exact fun h hlo hhi => ihC h hlo hhi
    | processTailStep hBT hBC hle =>
      exact ⟨hle, fun h hlo hhi => ihC h hlo hhi⟩
    | processChunkStep mn mx hBT hBC hmem hlt =>
      exact ⟨ihT, fun h hlo hhi => ihC h hlo hhi⟩
    | processChunkFinish mn mx hBT hBC hmem hge =>
      exact ⟨ihT, fun h hlo hhi => ihC h hlo hhi⟩

/-- **C1 counterexample.** The partition half of the claimed invariant fails
at a reachable state: right after the sync first-run fast-forward (chain
height 3, two CPUs) the sync tail is already `2` while nothing has been
extracted, so block `1` lies strictly between the cursors with no BlobStore
partition (the claim reads `indexer_process_tail ≤ indexer_sync_tail` AND
every block between them has a partition, at every reachable state). -/
theorem indexer_partition_counterexample :
    ¬ (∀ (cpu : Nat) (σ : IndexerState), Reach cpu σ →
      σ.processTail ≤ σ.syncTail ∧
        ∀ h, σ.processTail < h → h < σ.syncTail → h ∈ σ.partitions) := by
  intro hcl
  have hreach : Reach 2 ⟨2, [(0, 2)], [], 0, []⟩ :=
    Reach.step Reach.init
      (@Step.syncFirstRun 2 ⟨0, [], [], 0, []⟩ 3 rfl rfl (by decide))
  have h1 := (hcl 2 ⟨2, [(0, 2)], [], 0, []⟩ hreach).2 1 (by decide) (by decide)
  simp at h1

/-- **C1 (amended).** On a host with at least two CPUs, at every reachable
state of the per-network Sync/Process system: the process tail cursor never
exceeds the sync tail cursor (the process stage only runs behind the barrier
`sync tail exists ∧ > 0 ∧ no sync chunk keys`, its first run sets the process
tail to `sync_tail - 1`, and a worker advances only while
`block_height + 1 ≤ sync_tail` — all encoded in the `Step` guards); and once
no sync chunk keys remain for the network, every block in
`(process_tail, sync_tail]` has a BlobStore partition.  During the initial
chunked backfill (sync chunk keys still present) the partition half does not
yet hold — that is exactly what the barrier protects the process stage
from. -/
theorem indexer_cursor_invariant (cpu : Nat) (hcpu : 2 ≤ cpu)
    (σ : IndexerState) (hr : Reach cpu σ) :
    σ.processTail ≤ σ.syncTail ∧
    (σ.syncChunks = [] →
      ∀ h, σ.processTail < h → h ≤ σ.syncTail → h ∈ σ.partitions) := by
  obtain ⟨hT, hC⟩ := inv_reach cpu hcpu σ hr
  refine ⟨hT, fun hempty h hlo hhi => ?_⟩
  rcases hC h (by omega) hhi with hp | ⟨p, hp, -, -⟩
  · exact hp
  · rw [hempty] at hp
    simp at hp

/-- **C1 witness.** A network synced to height 1 through one chunk: first run
at chain height 2 creates chunk `(0, 1)` and fast-forwards the sync tail to
`1`; finishing the chunk extracts block `1` and deletes the key.  At the
resulting state the theorem yields `process_tail = 0 ≤ 1 = sync_tail` and
block `1` partitioned. -/
theorem indexer_cursor_invariant_witness :
    (⟨1, [], [1], 0, []⟩ : IndexerState).processTail ≤
        (⟨1, [], [1], 0, []⟩ : IndexerState).syncTail ∧
    ((⟨1, [], [1], 0, []⟩ : IndexerState).syncChunks = [] →
      ∀ h, (⟨1, [], [1], 0, []⟩ : IndexerState).processTail < h →
        h ≤ (⟨1, [], [1], 0, []⟩ : IndexerState).syncTail →
        h ∈ (⟨1, [], [1], 0, []⟩ : IndexerState).partitions) := by
  apply indexer_cursor_invariant 2 (by decide)
  have h1 : Reach 2 ⟨1, [(0, 1)], [], 0, []⟩ :=
    Reach.step Reach.init
      (@Step.syncFirstRun 2 ⟨0, [], [], 0, []⟩ 2 rfl rfl (by decide))
  exact Reach.step h1
    (@Step.syncChunkFinish 2 ⟨1, [(0, 1)], [], 0, []⟩ 0 1 (by decide) rfl)

end Barreleye
